import Mathlib

/-
Verification development for the jclearn library (prob.py and kelly.py).

Embedding conventions:
- IEEE doubles are modelled as exact rationals.
- A numpy 1-D array of length n is a function from Fin n to the rationals,
  or a List of rationals where the source works with Python lists.
- The call np.power(wos, c) for a real exponent c produces some positive
  vector whenever wos is positive; the per-level powered vectors are passed
  as explicit parameters (v1, v2, v3, v4), and powVec gives the exact case
  of a natural-number exponent.
- The call np.divide(a, b, where = b != 0) without an out argument leaves
  the cells where the mask is false holding whatever the freshly allocated
  buffer contained.  Those unspecified cell contents are modelled by an
  explicit parameter (g3 for the level-3 division, g4 for the level-4 one):
  every statement about the code is quantified over, or instantiated at,
  arbitrary values of these parameters.
- Rational division by zero is total in Lean (x / 0 = 0); all statements
  that depend on a division keep the relevant denominator nonzero in their
  hypotheses, matching the floating-point runs they describe.
-/

namespace JClearn

/-- RankWeight(k): nppow / nppow.sum() where nppow = np.power(wos, c_k)
(prob.py lines 50-51, 59-60, 70-71, 100).  The powered vector is the
argument. -/
def rankWeight {n : ℕ} (v : Fin n → ℚ) : Fin n → ℚ := fun i => v i / ∑ j, v j

/-- np.power(wos, c) for a natural-number exponent c. -/
def powVec {n : ℕ} (wos : Fin n → ℚ) (c : ℕ) : Fin n → ℚ := fun i => wos i ^ c

/-- The second-order tensor self.p_ij (prob.py lines 58-62):
p_i2.reshape(-1, 1) * (self.p_i / (1 - p_i2)), then the diagonal is set
to 0.  Here p is the level-1 vector self.p_i and q is the level-2 vector
p_i2; the broadcast gives entry (i, j) = q i * (p j / (1 - q j)). -/
def p_ij {n : ℕ} (p q : Fin n → ℚ) (i j : Fin n) : ℚ :=
  if i = j then 0 else q i * (p j / (1 - q j))

/-- The level-3 conditional denominator (prob.py lines 72-73):
comp = 1 - comp - comp.T where comp tiles the level-3 vector down columns,
so entry (i, j) = 1 - r i - r j. -/
def denom3 {n : ℕ} (r : Fin n → ℚ) (i j : Fin n) : ℚ := 1 - r i - r j

/-- The level-3 division np.divide(self.p_ij, comp, where = comp != 0)
(prob.py line 74).  Where the denominator is zero the output buffer cell
is left as allocated; that content is the parameter g3. -/
def comp3 {n : ℕ} (p q r : Fin n → ℚ) (g3 : Fin n → Fin n → ℚ) (i j : Fin n) : ℚ :=
  if denom3 r i j = 0 then g3 i j else p_ij p q i j / denom3 r i j

/-- The third-order tensor self.p_ijk (prob.py lines 69-77): the division
result times the level-3 vector along a new axis, then the masks on lines
76-77 zero the entries with j = k (axes 1,2) and with i = k (axes 0,2).
The source has no mask for i = j at level 3. -/
def p_ijk {n : ℕ} (p q r : Fin n → ℚ) (g3 : Fin n → Fin n → ℚ) (i j k : Fin n) : ℚ :=
  if j = k then 0 else if i = k then 0 else comp3 p q r g3 i j * r k

/-- The level-4 conditional denominator (prob.py lines 101-102):
entry (i, j, k) = 1 - s i - s j - s k. -/
def denom4 {n : ℕ} (s : Fin n → ℚ) (i j k : Fin n) : ℚ := 1 - s i - s j - s k

/-- The level-4 division np.divide(self.p_ijk, comp, where = comp != 0)
(prob.py line 103), with g4 the content of the unwritten cells. -/
def comp4 {n : ℕ} (p q r s : Fin n → ℚ) (g3 : Fin n → Fin n → ℚ)
    (g4 : Fin n → Fin n → Fin n → ℚ) (i j k : Fin n) : ℚ :=
  if denom4 s i j k = 0 then g4 i j k else p_ijk p q r g3 i j k / denom4 s i j k

/-- The fourth-order tensor self.p_ijkl (prob.py lines 99-111): the
division result times the level-4 vector along a new axis, then the loop
on lines 105-111 zeroes every entry in which any two of the four indices
coincide (all six pairs are masked at level 4). -/
def p_ijkl {n : ℕ} (p q r s : Fin n → ℚ) (g3 : Fin n → Fin n → ℚ)
    (g4 : Fin n → Fin n → Fin n → ℚ) (i j k l : Fin n) : ℚ :=
  if i = j ∨ i = k ∨ i = l ∨ j = k ∨ j = l ∨ k = l then 0
  else comp4 p q r s g3 g4 i j k * s l

/-- Pool output for win (prob.py lines 53-54): the level-1 vector. -/
def winPool {n : ℕ} (p : Fin n → ℚ) (i : Fin n) : ℚ := p i

/-- Pool output for quinella (prob.py lines 64-65): self.p_ij + self.p_ij.T. -/
def quinella {n : ℕ} (p q : Fin n → ℚ) (i j : Fin n) : ℚ :=
  p_ij p q i j + p_ij p q j i

/-- Pool output for tierce (prob.py lines 79-80): self.p_ijk itself. -/
def tierce {n : ℕ} (p q r : Fin n → ℚ) (g3 : Fin n → Fin n → ℚ) (i j k : Fin n) : ℚ :=
  p_ijk p q r g3 i j k

/-- Pool output for trio (prob.py lines 81-85): the sum of self.p_ijk over
all 6 axis permutations, written out entrywise. -/
def trio {n : ℕ} (p q r : Fin n → ℚ) (g3 : Fin n → Fin n → ℚ) (i j k : Fin n) : ℚ :=
  p_ijk p q r g3 i j k + p_ijk p q r g3 i k j +
  p_ijk p q r g3 j i k + p_ijk p q r g3 j k i +
  p_ijk p q r g3 k i j + p_ijk p q r g3 k j i

/-- Pool output for place (prob.py lines 86-89):
self.p_i + self.p_ij.sum(axis = 1) + self.p_ijk.sum(axis = 1).sum(axis = 0). -/
def place {n : ℕ} (p q r : Fin n → ℚ) (g3 : Fin n → Fin n → ℚ) (i : Fin n) : ℚ :=
  p i + (∑ j, p_ij p q i j) + (∑ a, ∑ b, p_ijk p q r g3 a b i)

/-- Pool output for place_q (prob.py lines 90-95): p_ij plus its transpose
plus both two-axis marginals of p_ijk and their transposes. -/
def place_q {n : ℕ} (p q r : Fin n → ℚ) (g3 : Fin n → Fin n → ℚ) (i j : Fin n) : ℚ :=
  p_ij p q i j + p_ij p q j i +
  (∑ b, p_ijk p q r g3 i b j) + (∑ b, p_ijk p q r g3 j b i) +
  (∑ a, p_ijk p q r g3 a i j) + (∑ a, p_ijk p q r g3 a j i)

/-- Pool output for quartet (prob.py lines 113-114): self.p_ijkl itself. -/
def quartet {n : ℕ} (p q r s : Fin n → ℚ) (g3 : Fin n → Fin n → ℚ)
    (g4 : Fin n → Fin n → Fin n → ℚ) (i j k l : Fin n) : ℚ :=
  p_ijkl p q r s g3 g4 i j k l

/-- Pool output for first_4 (prob.py lines 115-119): the sum of
self.p_ijkl over all 24 axis permutations, written out entrywise. -/
def first_4 {n : ℕ} (p q r s : Fin n → ℚ) (g3 : Fin n → Fin n → ℚ)
    (g4 : Fin n → Fin n → Fin n → ℚ) (i j k l : Fin n) : ℚ :=
  p_ijkl p q r s g3 g4 i j k l + p_ijkl p q r s g3 g4 i j l k +
  p_ijkl p q r s g3 g4 i k j l + p_ijkl p q r s g3 g4 i k l j +
  p_ijkl p q r s g3 g4 i l j k + p_ijkl p q r s g3 g4 i l k j +
  p_ijkl p q r s g3 g4 j i k l + p_ijkl p q r s g3 g4 j i l k +
  p_ijkl p q r s g3 g4 j k i l + p_ijkl p q r s g3 g4 j k l i +
  p_ijkl p q r s g3 g4 j l i k + p_ijkl p q r s g3 g4 j l k i +
  p_ijkl p q r s g3 g4 k i j l + p_ijkl p q r s g3 g4 k i l j +
  p_ijkl p q r s g3 g4 k j i l + p_ijkl p q r s g3 g4 k j l i +
  p_ijkl p q r s g3 g4 k l i j + p_ijkl p q r s g3 g4 k l j i +
  p_ijkl p q r s g3 g4 l i j k + p_ijkl p q r s g3 g4 l i k j +
  p_ijkl p q r s g3 g4 l j i k + p_ijkl p q r s g3 g4 l j k i +
  p_ijkl p q r s g3 g4 l k i j + p_ijkl p q r s g3 g4 l k j i

/-- Ordered pairs of competitor indices with distinct entries. -/
def dpair (n : ℕ) : Finset (Fin n × Fin n) :=
  Finset.univ.filter fun t => t.1 ≠ t.2

/-- Ordered triples of competitor indices with pairwise-distinct entries. -/
def dtriple (n : ℕ) : Finset (Fin n × Fin n × Fin n) :=
  Finset.univ.filter fun t => t.1 ≠ t.2.1 ∧ t.1 ≠ t.2.2 ∧ t.2.1 ≠ t.2.2

/-- Ordered quadruples of competitor indices with pairwise-distinct entries. -/
def dquad (n : ℕ) : Finset (Fin n × Fin n × Fin n × Fin n) :=
  Finset.univ.filter fun t =>
    t.1 ≠ t.2.1 ∧ t.1 ≠ t.2.2.1 ∧ t.1 ≠ t.2.2.2 ∧
    t.2.1 ≠ t.2.2.1 ∧ t.2.1 ≠ t.2.2.2 ∧ t.2.2.1 ≠ t.2.2.2

/-- Sum of a matrix over all ordered pairs of distinct indices. -/
def sumD2 {n : ℕ} (f : Fin n → Fin n → ℚ) : ℚ := ∑ t ∈ dpair n, f t.1 t.2

/-- Sum of a 3-tensor over all ordered triples of pairwise-distinct indices. -/
def sumD3 {n : ℕ} (f : Fin n → Fin n → Fin n → ℚ) : ℚ :=
  ∑ t ∈ dtriple n, f t.1 t.2.1 t.2.2

/-- Sum of a 4-tensor over all ordered quadruples of pairwise-distinct
indices. -/
def sumD4 {n : ℕ} (f : Fin n → Fin n → Fin n → Fin n → ℚ) : ℚ :=
  ∑ t ∈ dquad n, f t.1 t.2.1 t.2.2.1 t.2.2.2

/-- The eight pool names accepted by ProbProber.transform (prob.py line 35). -/
inductive Pool where
  | win
  | quinella
  | tierce
  | trio
  | place
  | place_q
  | quartet
  | first_4
  deriving DecidableEq

/-- ProbProber._check_dim (prob.py lines 37-39): raises when
dim <= least_dim. -/
def checkDim (dim leastDim : ℕ) : Bool := decide (dim ≤ leastDim)

/-- Whether ProbProber.transform(pool) raises the insufficient-competitors
error, following the control flow of prob.py lines 45-97: win returns
before any dimension check; the checks against 2, 3 and 4 are reached in
order depending on how far the requested pool sits in the method body. -/
def transformRaises (dim : ℕ) : Pool → Bool
  | Pool.win => false
  | Pool.quinella => checkDim dim 2
  | Pool.tierce => checkDim dim 2 || checkDim dim 3
  | Pool.trio => checkDim dim 2 || checkDim dim 3
  | Pool.place => checkDim dim 2 || checkDim dim 3
  | Pool.place_q => checkDim dim 2 || checkDim dim 3
  | Pool.quartet => checkDim dim 2 || checkDim dim 3 || checkDim dim 4
  | Pool.first_4 => checkDim dim 2 || checkDim dim 3 || checkDim dim 4

/-- The strict lower bound on the competitor count for each pool as the
claims state it: the claims assert the error is raised exactly when n is
not strictly greater than this bound. -/
def poolBound : Pool → ℕ
  | Pool.win => 0
  | Pool.quinella => 2
  | Pool.tierce => 3
  | Pool.trio => 3
  | Pool.place => 3
  | Pool.place_q => 3
  | Pool.quartet => 4
  | Pool.first_4 => 4

/-- Effect of ProbProber.__init__ on the coefficient list (prob.py lines
26-34): self.c = c aliases the caller list, and when len(c) < 4 the list
object is extended in place with 1 entries up to length 4, so the single
value returned here stands for both the caller list after construction
and the stored self.c. -/
def probInitC (c : List ℚ) : List ℚ :=
  if c.length < 4 then c ++ List.replicate (4 - c.length) 1 else c

/-- The probability-sum check of MultiKellyBettor.__init__ as written in
the source (kelly.py line 33): np.sum(self.prob) - 1 > 1e6, with the
literal one million and no absolute value. -/
def kellySumCheck (prob : List ℚ) : Bool := decide (prob.sum - 1 > 1000000)

/-- The odds check of MultiKellyBettor.__init__ (kelly.py line 35):
np.any(self.odds <= 1). -/
def kellyOddsCheck (odds : List ℚ) : Bool := odds.any fun o => decide (o ≤ 1)

/-- Construction of MultiKellyBettor succeeds (kelly.py lines 29-36):
matching 1-D shapes, the sum check does not fire, and no odds entry
is <= 1. -/
def kellyValid (odds prob : List ℚ) : Bool :=
  decide (odds.length = prob.length) && !kellySumCheck prob && !kellyOddsCheck odds

/-- Running cumulative sums, modelling np.cumsum. -/
def cumsumFrom (acc : ℚ) : List ℚ → List ℚ
  | [] => []
  | x :: xs => (acc + x) :: cumsumFrom (acc + x) xs

/-- np.cumsum on a 1-D array. -/
def cumsum (l : List ℚ) : List ℚ := cumsumFrom 0 l

/-- np.argsort(eret)[::-1] (kelly.py line 47): the competitor indices
sorted by expected return in descending order (tie order unspecified in
the claims; insertion sort fixes one). -/
def argsortDesc (e : List ℚ) : List ℕ :=
  List.insertionSort (fun a b => e.getD a 0 ≥ e.getD b 0) (List.range e.length)

/-- The betting branch of MultiKellyBettor.transform (kelly.py lines
55-66): reciprocal odds, cumulative sums, the positive part of
(1 - csprob) / (1 - csrodds), its minimum v, the bet fractions
prob - v / odds clamped at 0, and the write-back loop over the first
len(tmp) sorted positions.  An empty minimum models the numpy error on
an empty reduction. -/
def kellyBet (odds prob : List ℚ) (idxs : List ℕ) : Option (List ℚ) :=
  let sodds := idxs.map fun i => odds.getD i 0
  let sprob := idxs.map fun i => prob.getD i 0
  let rodds := sodds.map fun o => 1 / o
  let csprob := cumsum sprob
  let csrodds := cumsum rodds
  let tmp := List.zipWith (fun a b => (1 - a) / (1 - b)) csprob csrodds
  let tmpPos := tmp.filter fun x => decide (0 < x)
  match tmpPos.min? with
  | none => none
  | some v =>
    let bf := List.zipWith (fun pr o => if pr - v / o < 0 then 0 else pr - v / o) sprob sodds
    some ((List.range tmpPos.length).foldl
      (fun acc k => acc.set (idxs.getD k 0) (bf.getD k 0)) (List.replicate odds.length 0))

/-- Dispatch on the sorted index list: an empty list models the numpy
IndexError of eret[0] on an empty array; otherwise the head carries the
maximal expected return and the no-edge test of kelly.py line 52 runs. -/
def kellyGo (odds prob : List ℚ) : List ℕ → Option (List ℚ)
  | [] => none
  | i0 :: rest =>
    if (List.zipWith (· * ·) odds prob).getD i0 0 ≤ 1 then
      some (List.replicate odds.length 0)
    else kellyBet odds prob (i0 :: rest)

/-- MultiKellyBettor.transform (kelly.py lines 44-66) with competitors
labelled by their positions: the returned list holds the proportion for
each original index. -/
def kellyTransform (odds prob : List ℚ) : Option (List ℚ) :=
  kellyGo odds prob (argsortDesc (List.zipWith (· * ·) odds prob))

/-- The concrete win-weight vector of the place scenario (prob.py line 125). -/
def w7 : Fin 7 → ℚ := ![1/10, 2/10, 2/10, 1/20, 1/20, 3/10, 1/10]

/-- The expected place vector of the scenario, to four decimal places. -/
def placeTarget : Fin 7 → ℚ :=
  ![3485/10000, 5954/10000, 5954/10000, 1854/10000, 1854/10000, 7414/10000, 3485/10000]

/-- All-ones powered weight vector on five competitors, a witness input. -/
def ones5 : Fin 5 → ℚ := fun _ => 1

/-- A concrete content for the unwritten level-3 division cells. -/
def zg3 : Fin 5 → Fin 5 → ℚ := fun _ _ => 0

/-- A concrete content for the unwritten level-4 division cells. -/
def zg4 : Fin 5 → Fin 5 → Fin 5 → ℚ := fun _ _ _ => 0

/-- A concrete content for the unwritten level-3 division cells on seven
competitors. -/
def zg7 : Fin 7 → Fin 7 → ℚ := fun _ _ => 0

/-- When the conditional weight of positions i and j already exhausts the
whole level-3 mass (zero denominator) and the powered weights are
nonnegative, every other competitor carries rank weight 0. -/
lemma rankWeight_eq_zero_of_denom3 {n : ℕ} (v : Fin n → ℚ) (hv : ∀ i, 0 ≤ v i)
    (i j : Fin n) (hij : i ≠ j) (hd : denom3 (rankWeight v) i j = 0)
    (k : Fin n) (hki : k ≠ i) (hkj : k ≠ j) : rankWeight v k = 0 := by
  by_cases hS : (∑ m, v m) = 0
  · exfalso
    have hall : ∀ m, rankWeight v m = 0 := by
      intro m
      show v m / ∑ x, v x = 0
      rw [hS, div_zero]
    rw [denom3, hall i, hall j] at hd
    norm_num at hd
  · have hvij : v i + v j = ∑ m, v m := by
      have hd2 : 1 - v i / (∑ m, v m) - v j / (∑ m, v m) = 0 := hd
      field_simp at hd2
      linarith
    have hsub : ∑ m ∈ Finset.univ \ {i, j}, v m = 0 := by
      rw [Finset.sum_sdiff_eq_sub (Finset.subset_univ _), Finset.sum_pair hij]
      linarith
    have hk0 : v k = 0 := by
      have hkmem : k ∈ Finset.univ \ ({i, j} : Finset (Fin n)) := by
        simp [hki, hkj]
      exact (Finset.sum_eq_zero_iff_of_nonneg fun m _ => hv m).mp hsub k hkmem
    show v k / ∑ x, v x = 0
    rw [hk0, zero_div]

/-- Level-4 analogue: a vanishing level-4 denominator at three distinct
positions forces rank weight 0 on every other competitor. -/
lemma rankWeight_eq_zero_of_denom4 {n : ℕ} (v : Fin n → ℚ) (hv : ∀ i, 0 ≤ v i)
    (i j k : Fin n) (hij : i ≠ j) (hik : i ≠ k) (hjk : j ≠ k)
    (hd : denom4 (rankWeight v) i j k = 0)
    (l : Fin n) (hli : l ≠ i) (hlj : l ≠ j) (hlk : l ≠ k) : rankWeight v l = 0 := by
  by_cases hS : (∑ m, v m) = 0
  · exfalso
    have hall : ∀ m, rankWeight v m = 0 := by
      intro m
      show v m / ∑ x, v x = 0
      rw [hS, div_zero]
    rw [denom4, hall i, hall j, hall k] at hd
    norm_num at hd
  · have hvijk : v i + v j + v k = ∑ m, v m := by
      have hd2 : 1 - v i / (∑ m, v m) - v j / (∑ m, v m) - v k / (∑ m, v m) = 0 := hd
      field_simp at hd2
      linarith
    have hsub : ∑ m ∈ Finset.univ \ {i, j, k}, v m = 0 := by
      rw [Finset.sum_sdiff_eq_sub (Finset.subset_univ _)]
      rw [Finset.sum_insert (by simp [hij, hik]), Finset.sum_pair hjk]
      linarith
    have hl0 : v l = 0 := by
      have hlmem : l ∈ Finset.univ \ ({i, j, k} : Finset (Fin n)) := by
        simp [hli, hlj, hlk]
      exact (Finset.sum_eq_zero_iff_of_nonneg fun m _ => hv m).mp hsub l hlmem
    show v l / ∑ x, v x = 0
    rw [hl0, zero_div]

/-- Summing a vector with one position zeroed out. -/
lemma sum_if_eq_zero_else {n : ℕ} (r : Fin n → ℚ) (j : Fin n) :
    ∑ i, (if i = j then 0 else r i) = (∑ i, r i) - r j := by
  have h : ∀ i : Fin n, (if i = j then 0 else r i) = r i - (if i = j then r i else 0) := by
    intro i
    by_cases hij : i = j <;> simp [hij]
  rw [Finset.sum_congr rfl fun i _ => h i, Finset.sum_sub_distrib,
    Finset.sum_ite_eq' Finset.univ j r]
  simp

/-- Summing a vector with two distinct positions zeroed out. -/
lemma sum_if_mem_pair_zero {n : ℕ} (r : Fin n → ℚ) (i j : Fin n) (hij : i ≠ j) :
    ∑ k, (if k = i ∨ k = j then 0 else r k) = (∑ k, r k) - r i - r j := by
  have h : ∀ k : Fin n, (if k = i ∨ k = j then 0 else r k)
      = r k - (if k = i then r k else 0) - (if k = j then r k else 0) := by
    intro k
    by_cases hki : k = i
    · subst hki
      simp [hij]
    · by_cases hkj : k = j <;> simp [hki, hkj, Ne.symm hij]
  rw [Finset.sum_congr rfl fun k _ => h k, Finset.sum_sub_distrib, Finset.sum_sub_distrib,
    Finset.sum_ite_eq' Finset.univ i r, Finset.sum_ite_eq' Finset.univ j r]
  simp

/-- Summing a vector with three pairwise-distinct positions zeroed out. -/
lemma sum_if_mem_triple_zero {n : ℕ} (s : Fin n → ℚ) (i j k : Fin n)
    (hij : i ≠ j) (hik : i ≠ k) (hjk : j ≠ k) :
    ∑ l, (if l = i ∨ l = j ∨ l = k then 0 else s l) = (∑ l, s l) - s i - s j - s k := by
  have h : ∀ l : Fin n, (if l = i ∨ l = j ∨ l = k then 0 else s l)
      = s l - (if l = i then s l else 0) - (if l = j then s l else 0)
          - (if l = k then s l else 0) := by
    intro l
    by_cases hli : l = i
    · subst hli
      simp [hij, hik]
    · by_cases hlj : l = j
      · subst hlj
        simp [hli, hjk]
      · by_cases hlk : l = k <;> simp [hli, hlj, hlk, Ne.symm hik, Ne.symm hjk]
  rw [Finset.sum_congr rfl fun l _ => h l, Finset.sum_sub_distrib, Finset.sum_sub_distrib,
    Finset.sum_sub_distrib, Finset.sum_ite_eq' Finset.univ i s,
    Finset.sum_ite_eq' Finset.univ j s, Finset.sum_ite_eq' Finset.univ k s]
  simp

/-- The distinct-pair sum as an iterated guarded sum. -/
lemma sumD2_eq {n : ℕ} (f : Fin n → Fin n → ℚ) :
    sumD2 f = ∑ i, ∑ j, if i ≠ j then f i j else 0 := by
  simp [sumD2, dpair, Finset.sum_filter, Fintype.sum_prod_type]

/-- The distinct-triple sum as an iterated guarded sum. -/
lemma sumD3_eq {n : ℕ} (f : Fin n → Fin n → Fin n → ℚ) :
    sumD3 f = ∑ i, ∑ j, ∑ k, if i ≠ j ∧ i ≠ k ∧ j ≠ k then f i j k else 0 := by
  simp [sumD3, dtriple, Finset.sum_filter, Fintype.sum_prod_type]

/-- The distinct-quadruple sum as an iterated guarded sum. -/
lemma sumD4_eq {n : ℕ} (f : Fin n → Fin n → Fin n → Fin n → ℚ) :
    sumD4 f = ∑ i, ∑ j, ∑ k, ∑ l,
      if i ≠ j ∧ i ≠ k ∧ i ≠ l ∧ j ≠ k ∧ j ≠ l ∧ k ≠ l then f i j k l else 0 := by
  simp [sumD4, dquad, Finset.sum_filter, Fintype.sum_prod_type]

/-- Column sums of the second-order tensor recover the level-1 vector. -/
lemma sum_col_p_ij {n : ℕ} (p q : Fin n → ℚ) (hq : ∑ i, q i = 1)
    (hq1 : ∀ j, 1 - q j ≠ 0) (j : Fin n) : ∑ i, p_ij p q i j = p j := by
  have h1 : ∀ i : Fin n, p_ij p q i j = (if i = j then 0 else q i) * (p j / (1 - q j)) := by
    intro i
    by_cases hij : i = j <;> simp [p_ij, hij]
  rw [Finset.sum_congr rfl fun i _ => h1 i, ← Finset.sum_mul, sum_if_eq_zero_else, hq,
    mul_comm, div_mul_cancel₀ _ (hq1 j)]

/-- The full double sum of the second-order tensor is 1. -/
lemma sum_sum_p_ij {n : ℕ} (p q : Fin n → ℚ) (hp : ∑ i, p i = 1) (hq : ∑ i, q i = 1)
    (hq1 : ∀ j, 1 - q j ≠ 0) : ∑ i, ∑ j, p_ij p q i j = 1 := by
  rw [Finset.sum_comm, Finset.sum_congr rfl fun j _ => sum_col_p_ij p q hq hq1 j, hp]

/-- Iterated guarded form of the level-2 distinct sum. -/
lemma canon2_p_ij {n : ℕ} (p q : Fin n → ℚ) (hp : ∑ i, p i = 1) (hq : ∑ i, q i = 1)
    (hq1 : ∀ j, 1 - q j ≠ 0) :
    ∑ i, ∑ j, (if i ≠ j then p_ij p q i j else 0) = 1 := by
  have hmerge : ∀ i j : Fin n, (if i ≠ j then p_ij p q i j else 0) = p_ij p q i j := by
    intro i j
    by_cases hij : i = j <;> simp [p_ij, hij]
  rw [Finset.sum_congr rfl fun i _ => Finset.sum_congr rfl fun j _ => hmerge i j]
  exact sum_sum_p_ij p q hp hq hq1

/-- C2 helper, level 2: the second-order tensor sums to 1 over distinct
pairs. -/
lemma sumD2_p_ij_one {n : ℕ} (p q : Fin n → ℚ) (hp : ∑ i, p i = 1) (hq : ∑ i, q i = 1)
    (hq1 : ∀ j, 1 - q j ≠ 0) : sumD2 (p_ij p q) = 1 := by
  rw [sumD2_eq]
  exact canon2_p_ij p q hp hq hq1

/-- Iterated guarded form of the level-3 distinct sum: summing out the
third axis telescopes to the level-2 sum. -/
lemma canon3_p_ijk {n : ℕ} (p q r : Fin n → ℚ) (g3 : Fin n → Fin n → ℚ)
    (hp : ∑ i, p i = 1) (hq : ∑ i, q i = 1) (hq1 : ∀ j, 1 - q j ≠ 0)
    (hr : ∑ i, r i = 1) (hd3 : ∀ i j, i ≠ j → denom3 r i j ≠ 0) :
    ∑ i, ∑ j, ∑ k, (if i ≠ j ∧ i ≠ k ∧ j ≠ k then p_ijk p q r g3 i j k else 0) = 1 := by
  have hstep : ∀ i j : Fin n,
      ∑ k, (if i ≠ j ∧ i ≠ k ∧ j ≠ k then p_ijk p q r g3 i j k else 0)
        = (if i ≠ j then p_ij p q i j else 0) := by
    intro i j
    by_cases hij : i = j
    · simp [hij]
    · have h1 : ∀ k : Fin n, (if i ≠ j ∧ i ≠ k ∧ j ≠ k then p_ijk p q r g3 i j k else 0)
          = comp3 p q r g3 i j * (if k = i ∨ k = j then 0 else r k) := by
        intro k
        by_cases hki : k = i
        · simp [hki]
        · by_cases hkj : k = j
          · simp [hkj]
          · have hik : i ≠ k := fun h => hki h.symm
            have hjk : j ≠ k := fun h => hkj h.symm
            rw [if_pos ⟨hij, hik, hjk⟩, p_ijk, if_neg hjk, if_neg hik,
              if_neg (show ¬(k = i ∨ k = j) from by tauto)]
      rw [Finset.sum_congr rfl fun k _ => h1 k, ← Finset.mul_sum,
        sum_if_mem_pair_zero r i j hij, hr, if_pos hij, comp3, if_neg (hd3 i j hij)]
      show p_ij p q i j / denom3 r i j * (1 - r i - r j) = p_ij p q i j
      rw [show (1 : ℚ) - r i - r j = denom3 r i j from rfl, div_mul_cancel₀ _ (hd3 i j hij)]
  rw [Finset.sum_congr rfl fun i _ => Finset.sum_congr rfl fun j _ => hstep i j]
  exact canon2_p_ij p q hp hq hq1

/-- C2 helper, level 3: the third-order tensor sums to 1 over distinct
triples, whatever the unwritten division cells hold. -/
lemma sumD3_p_ijk_one {n : ℕ} (p q r : Fin n → ℚ) (g3 : Fin n → Fin n → ℚ)
    (hp : ∑ i, p i = 1) (hq : ∑ i, q i = 1) (hq1 : ∀ j, 1 - q j ≠ 0)
    (hr : ∑ i, r i = 1) (hd3 : ∀ i j, i ≠ j → denom3 r i j ≠ 0) :
    sumD3 (p_ijk p q r g3) = 1 := by
  rw [sumD3_eq]
  exact canon3_p_ijk p q r g3 hp hq hq1 hr hd3

/-- Iterated guarded form of the level-4 distinct sum: summing out the
fourth axis telescopes to the level-3 sum. -/
lemma canon4_p_ijkl {n : ℕ} (p q r s : Fin n → ℚ) (g3 : Fin n → Fin n → ℚ)
    (g4 : Fin n → Fin n → Fin n → ℚ)
    (hp : ∑ i, p i = 1) (hq : ∑ i, q i = 1) (hq1 : ∀ j, 1 - q j ≠ 0)
    (hr : ∑ i, r i = 1) (hd3 : ∀ i j, i ≠ j → denom3 r i j ≠ 0)
    (hs : ∑ i, s i = 1) (hd4 : ∀ i j k, i ≠ j → i ≠ k → j ≠ k → denom4 s i j k ≠ 0) :
    ∑ i, ∑ j, ∑ k, ∑ l,
      (if i ≠ j ∧ i ≠ k ∧ i ≠ l ∧ j ≠ k ∧ j ≠ l ∧ k ≠ l
        then p_ijkl p q r s g3 g4 i j k l else 0) = 1 := by
  have hstep : ∀ i j k : Fin n,
      ∑ l, (if i ≠ j ∧ i ≠ k ∧ i ≠ l ∧ j ≠ k ∧ j ≠ l ∧ k ≠ l
          then p_ijkl p q r s g3 g4 i j k l else 0)
        = (if i ≠ j ∧ i ≠ k ∧ j ≠ k then p_ijk p q r g3 i j k else 0) := by
    intro i j k
    by_cases h3 : i ≠ j ∧ i ≠ k ∧ j ≠ k
    · obtain ⟨hij, hik, hjk⟩ := h3
      have h1 : ∀ l : Fin n,
          (if i ≠ j ∧ i ≠ k ∧ i ≠ l ∧ j ≠ k ∧ j ≠ l ∧ k ≠ l
            then p_ijkl p q r s g3 g4 i j k l else 0)
          = comp4 p q r s g3 g4 i j k * (if l = i ∨ l = j ∨ l = k then 0 else s l) := by
        intro l
        by_cases hli : l = i
        · simp [hli]
        · by_cases hlj : l = j
          · simp [hlj]
          · by_cases hlk : l = k
            · simp [hlk]
            · have hil : i ≠ l := fun h => hli h.symm
              have hjl : j ≠ l := fun h => hlj h.symm
              have hkl : k ≠ l := fun h => hlk h.symm
              rw [if_pos ⟨hij, hik, hil, hjk, hjl, hkl⟩, p_ijkl,
                if_neg (show ¬(i = j ∨ i = k ∨ i = l ∨ j = k ∨ j = l ∨ k = l) from by tauto),
                if_neg (show ¬(l = i ∨ l = j ∨ l = k) from by tauto)]
      rw [Finset.sum_congr rfl fun l _ => h1 l, ← Finset.mul_sum,
        sum_if_mem_triple_zero s i j k hij hik hjk, hs, if_pos ⟨hij, hik, hjk⟩, comp4,
        if_neg (hd4 i j k hij hik hjk)]
      show p_ijk p q r g3 i j k / denom4 s i j k * (1 - s i - s j - s k)
        = p_ijk p q r g3 i j k
      rw [show (1 : ℚ) - s i - s j - s k = denom4 s i j k from rfl,
        div_mul_cancel₀ _ (hd4 i j k hij hik hjk)]
    · have hz : ∀ l : Fin n,
          (if i ≠ j ∧ i ≠ k ∧ i ≠ l ∧ j ≠ k ∧ j ≠ l ∧ k ≠ l
            then p_ijkl p q r s g3 g4 i j k l else 0) = 0 := by
        intro l
        rw [if_neg (by tauto)]
      rw [Finset.sum_congr rfl fun l _ => hz l, if_neg h3, Finset.sum_const_zero]
  rw [Finset.sum_congr rfl fun i _ => Finset.sum_congr rfl fun j _ =>
    Finset.sum_congr rfl fun k _ => hstep i j k]
  exact canon3_p_ijk p q r g3 hp hq hq1 hr hd3

/-- C2 helper, level 4: the fourth-order tensor sums to 1 over distinct
quadruples, whatever the unwritten division cells hold. -/
lemma sumD4_p_ijkl_one {n : ℕ} (p q r s : Fin n → ℚ) (g3 : Fin n → Fin n → ℚ)
    (g4 : Fin n → Fin n → Fin n → ℚ)
    (hp : ∑ i, p i = 1) (hq : ∑ i, q i = 1) (hq1 : ∀ j, 1 - q j ≠ 0)
    (hr : ∑ i, r i = 1) (hd3 : ∀ i j, i ≠ j → denom3 r i j ≠ 0)
    (hs : ∑ i, s i = 1) (hd4 : ∀ i j k, i ≠ j → i ≠ k → j ≠ k → denom4 s i j k ≠ 0) :
    sumD4 (p_ijkl p q r s g3 g4) = 1 := by
  rw [sumD4_eq]
  exact canon4_p_ijkl p q r s g3 g4 hp hq hq1 hr hd3 hs hd4

/-- A positive vector over a nonempty index type has positive sum. -/
lemma sum_pos_of_pos {n : ℕ} (v : Fin n → ℚ) (hv : ∀ i, 0 < v i) (hn : 1 ≤ n) :
    0 < ∑ i, v i := by
  have : Nonempty (Fin n) := Fin.pos_iff_nonempty.mp hn
  exact Finset.sum_pos (fun i _ => hv i) Finset.univ_nonempty

/-- Normalizing any vector with nonzero sum yields a vector summing to 1. -/
lemma sum_rankWeight {n : ℕ} (v : Fin n → ℚ) (hS : (∑ i, v i) ≠ 0) :
    ∑ i, rankWeight v i = 1 := by
  have h : ∑ i, rankWeight v i = (∑ i, v i) / (∑ i, v i) := by
    unfold rankWeight
    rw [← Finset.sum_div]
  rw [h, div_self hS]

/-- With at least two competitors of positive powered weight, no rank
weight reaches 1, so the level-2 denominators are nonzero. -/
lemma one_sub_rankWeight_ne {n : ℕ} (v : Fin n → ℚ) (hv : ∀ i, 0 < v i) (hn : 2 ≤ n)
    (j : Fin n) : 1 - rankWeight v j ≠ 0 := by
  have hS : 0 < ∑ i, v i := sum_pos_of_pos v hv (le_trans (by norm_num) hn)
  have hnt : Nontrivial (Fin n) := Fin.nontrivial_iff_two_le.mpr hn
  obtain ⟨i, hij⟩ := exists_ne j
  have hlt : v j < ∑ i, v i :=
    Finset.single_lt_sum hij (Finset.mem_univ j) (Finset.mem_univ i) (hv i)
      fun k _ _ => (hv k).le
  have hlt1 : rankWeight v j < 1 := by
    show v j / ∑ i, v i < 1
    rw [div_lt_one hS]
    exact hlt
  exact sub_ne_zero_of_ne (ne_of_gt hlt1)

/-- Transposing the two axes preserves the distinct-pair sum. -/
lemma sumD2_swap {n : ℕ} (f : Fin n → Fin n → ℚ) :
    ∑ t ∈ dpair n, f t.2 t.1 = ∑ t ∈ dpair n, f t.1 t.2 := by
  refine Finset.sum_nbij' (fun t => (t.2, t.1)) (fun t => (t.2, t.1))
    ?_ ?_ ?_ ?_ ?_ <;> intro a ha <;>
    first
      | rfl
      | (simp only [dpair, Finset.mem_filter, Finset.mem_univ, true_and, ne_comm] at ha ⊢;
         tauto)

/-- Permuting the axes preserves the distinct-triple sum. -/
lemma sumD3_perm132 {n : ℕ} (f : Fin n → Fin n → Fin n → ℚ) :
    ∑ t ∈ dtriple n, f t.1 t.2.2 t.2.1 = ∑ t ∈ dtriple n, f t.1 t.2.1 t.2.2 := by
  refine Finset.sum_nbij' (fun t => (t.1, t.2.2, t.2.1)) (fun t => (t.1, t.2.2, t.2.1))
    ?_ ?_ ?_ ?_ ?_ <;> intro a ha <;>
    first
      | rfl
      | (simp only [dtriple, Finset.mem_filter, Finset.mem_univ, true_and, ne_comm] at ha ⊢;
         tauto)

/-- Permuting the axes preserves the distinct-triple sum. -/
lemma sumD3_perm213 {n : ℕ} (f : Fin n → Fin n → Fin n → ℚ) :
    ∑ t ∈ dtriple n, f t.2.1 t.1 t.2.2 = ∑ t ∈ dtriple n, f t.1 t.2.1 t.2.2 := by
  refine Finset.sum_nbij' (fun t => (t.2.1, t.1, t.2.2)) (fun t => (t.2.1, t.1, t.2.2))
    ?_ ?_ ?_ ?_ ?_ <;> intro a ha <;>
    first
      | rfl
      | (simp only [dtriple, Finset.mem_filter, Finset.mem_univ, true_and, ne_comm] at ha ⊢;
         tauto)

/-- Permuting the axes preserves the distinct-triple sum. -/
lemma sumD3_perm231 {n : ℕ} (f : Fin n → Fin n → Fin n → ℚ) :
    ∑ t ∈ dtriple n, f t.2.1 t.2.2 t.1 = ∑ t ∈ dtriple n, f t.1 t.2.1 t.2.2 := by
  refine Finset.sum_nbij' (fun t => (t.2.1, t.2.2, t.1)) (fun t => (t.2.2, t.1, t.2.1))
    ?_ ?_ ?_ ?_ ?_ <;> intro a ha <;>
    first
      | rfl
      | (simp only [dtriple, Finset.mem_filter, Finset.mem_univ, true_and, ne_comm] at ha ⊢;
         tauto)

/-- Permuting the axes preserves the distinct-triple sum. -/
lemma sumD3_perm312 {n : ℕ} (f : Fin n → Fin n → Fin n → ℚ) :
    ∑ t ∈ dtriple n, f t.2.2 t.1 t.2.1 = ∑ t ∈ dtriple n, f t.1 t.2.1 t.2.2 := by
  refine Finset.sum_nbij' (fun t => (t.2.2, t.1, t.2.1)) (fun t => (t.2.1, t.2.2, t.1))
    ?_ ?_ ?_ ?_ ?_ <;> intro a ha <;>
    first
      | rfl
      | (simp only [dtriple, Finset.mem_filter, Finset.mem_univ, true_and, ne_comm] at ha ⊢;
         tauto)

/-- Permuting the axes preserves the distinct-triple sum. -/
lemma sumD3_perm321 {n : ℕ} (f : Fin n → Fin n → Fin n → ℚ) :
    ∑ t ∈ dtriple n, f t.2.2 t.2.1 t.1 = ∑ t ∈ dtriple n, f t.1 t.2.1 t.2.2 := by
  refine Finset.sum_nbij' (fun t => (t.2.2, t.2.1, t.1)) (fun t => (t.2.2, t.2.1, t.1))
    ?_ ?_ ?_ ?_ ?_ <;> intro a ha <;>
    first
      | rfl
      | (simp only [dtriple, Finset.mem_filter, Finset.mem_univ, true_and, ne_comm] at ha ⊢;
         tauto)

/-- Permuting the axes preserves the distinct-quadruple sum. -/
lemma sumD4_perm1243 {n : ℕ} (f : Fin n → Fin n → Fin n → Fin n → ℚ) :
    ∑ t ∈ dquad n, f t.1 t.2.1 t.2.2.2 t.2.2.1 = ∑ t ∈ dquad n, f t.1 t.2.1 t.2.2.1 t.2.2.2 := by
  refine Finset.sum_nbij' (fun t => (t.1, t.2.1, t.2.2.2, t.2.2.1)) (fun t => (t.1, t.2.1, t.2.2.2, t.2.2.1))
    ?_ ?_ ?_ ?_ ?_ <;> intro a ha <;>
    first
      | rfl
      | (simp only [dquad, Finset.mem_filter, Finset.mem_univ, true_and, ne_comm] at ha ⊢;
         tauto)

/-- Permuting the axes preserves the distinct-quadruple sum. -/
lemma sumD4_perm1324 {n : ℕ} (f : Fin n → Fin n → Fin n → Fin n → ℚ) :
    ∑ t ∈ dquad n, f t.1 t.2.2.1 t.2.1 t.2.2.2 = ∑ t ∈ dquad n, f t.1 t.2.1 t.2.2.1 t.2.2.2 := by
  refine Finset.sum_nbij' (fun t => (t.1, t.2.2.1, t.2.1, t.2.2.2)) (fun t => (t.1, t.2.2.1, t.2.1, t.2.2.2))
    ?_ ?_ ?_ ?_ ?_ <;> intro a ha <;>
    first
      | rfl
      | (simp only [dquad, Finset.mem_filter, Finset.mem_univ, true_and, ne_comm] at ha ⊢;
         tauto)

/-- Permuting the axes preserves the distinct-quadruple sum. -/
lemma sumD4_perm1342 {n : ℕ} (f : Fin n → Fin n → Fin n → Fin n → ℚ) :
    ∑ t ∈ dquad n, f t.1 t.2.2.1 t.2.2.2 t.2.1 = ∑ t ∈ dquad n, f t.1 t.2.1 t.2.2.1 t.2.2.2 := by
  refine Finset.sum_nbij' (fun t => (t.1, t.2.2.1, t.2.2.2, t.2.1)) (fun t => (t.1, t.2.2.2, t.2.1, t.2.2.1))
    ?_ ?_ ?_ ?_ ?_ <;> intro a ha <;>
    first
      | rfl
      | (simp only [dquad, Finset.mem_filter, Finset.mem_univ, true_and, ne_comm] at ha ⊢;
         tauto)

/-- Permuting the axes preserves the distinct-quadruple sum. -/
lemma sumD4_perm1423 {n : ℕ} (f : Fin n → Fin n → Fin n → Fin n → ℚ) :
    ∑ t ∈ dquad n, f t.1 t.2.2.2 t.2.1 t.2.2.1 = ∑ t ∈ dquad n, f t.1 t.2.1 t.2.2.1 t.2.2.2 := by
  refine Finset.sum_nbij' (fun t => (t.1, t.2.2.2, t.2.1, t.2.2.1)) (fun t => (t.1, t.2.2.1, t.2.2.2, t.2.1))
    ?_ ?_ ?_ ?_ ?_ <;> intro a ha <;>
    first
      | rfl
      | (simp only [dquad, Finset.mem_filter, Finset.mem_univ, true_and, ne_comm] at ha ⊢;
         tauto)

/-- Permuting the axes preserves the distinct-quadruple sum. -/
lemma sumD4_perm1432 {n : ℕ} (f : Fin n → Fin n → Fin n → Fin n → ℚ) :
    ∑ t ∈ dquad n, f t.1 t.2.2.2 t.2.2.1 t.2.1 = ∑ t ∈ dquad n, f t.1 t.2.1 t.2.2.1 t.2.2.2 := by
  refine Finset.sum_nbij' (fun t => (t.1, t.2.2.2, t.2.2.1, t.2.1)) (fun t => (t.1, t.2.2.2, t.2.2.1, t.2.1))
    ?_ ?_ ?_ ?_ ?_ <;> intro a ha <;>
    first
      | rfl
      | (simp only [dquad, Finset.mem_filter, Finset.mem_univ, true_and, ne_comm] at ha ⊢;
         tauto)

/-- Permuting the axes preserves the distinct-quadruple sum. -/
lemma sumD4_perm2134 {n : ℕ} (f : Fin n → Fin n → Fin n → Fin n → ℚ) :
    ∑ t ∈ dquad n, f t.2.1 t.1 t.2.2.1 t.2.2.2 = ∑ t ∈ dquad n, f t.1 t.2.1 t.2.2.1 t.2.2.2 := by
  refine Finset.sum_nbij' (fun t => (t.2.1, t.1, t.2.2.1, t.2.2.2)) (fun t => (t.2.1, t.1, t.2.2.1, t.2.2.2))
    ?_ ?_ ?_ ?_ ?_ <;> intro a ha <;>
    first
      | rfl
      | (simp only [dquad, Finset.mem_filter, Finset.mem_univ, true_and, ne_comm] at ha ⊢;
         tauto)

/-- Permuting the axes preserves the distinct-quadruple sum. -/
lemma sumD4_perm2143 {n : ℕ} (f : Fin n → Fin n → Fin n → Fin n → ℚ) :
    ∑ t ∈ dquad n, f t.2.1 t.1 t.2.2.2 t.2.2.1 = ∑ t ∈ dquad n, f t.1 t.2.1 t.2.2.1 t.2.2.2 := by
  refine Finset.sum_nbij' (fun t => (t.2.1, t.1, t.2.2.2, t.2.2.1)) (fun t => (t.2.1, t.1, t.2.2.2, t.2.2.1))
    ?_ ?_ ?_ ?_ ?_ <;> intro a ha <;>
    first
      | rfl
      | (simp only [dquad, Finset.mem_filter, Finset.mem_univ, true_and, ne_comm] at ha ⊢;
         tauto)

/-- Permuting the axes preserves the distinct-quadruple sum. -/
lemma sumD4_perm2314 {n : ℕ} (f : Fin n → Fin n → Fin n → Fin n → ℚ) :
    ∑ t ∈ dquad n, f t.2.1 t.2.2.1 t.1 t.2.2.2 = ∑ t ∈ dquad n, f t.1 t.2.1 t.2.2.1 t.2.2.2 := by
  refine Finset.sum_nbij' (fun t => (t.2.1, t.2.2.1, t.1, t.2.2.2)) (fun t => (t.2.2.1, t.1, t.2.1, t.2.2.2))
    ?_ ?_ ?_ ?_ ?_ <;> intro a ha <;>
    first
      | rfl
      | (simp only [dquad, Finset.mem_filter, Finset.mem_univ, true_and, ne_comm] at ha ⊢;
         tauto)

/-- Permuting the axes preserves the distinct-quadruple sum. -/
lemma sumD4_perm2341 {n : ℕ} (f : Fin n → Fin n → Fin n → Fin n → ℚ) :
    ∑ t ∈ dquad n, f t.2.1 t.2.2.1 t.2.2.2 t.1 = ∑ t ∈ dquad n, f t.1 t.2.1 t.2.2.1 t.2.2.2 := by
  refine Finset.sum_nbij' (fun t => (t.2.1, t.2.2.1, t.2.2.2, t.1)) (fun t => (t.2.2.2, t.1, t.2.1, t.2.2.1))
    ?_ ?_ ?_ ?_ ?_ <;> intro a ha <;>
    first
      | rfl
      | (simp only [dquad, Finset.mem_filter, Finset.mem_univ, true_and, ne_comm] at ha ⊢;
         tauto)

/-- Permuting the axes preserves the distinct-quadruple sum. -/
lemma sumD4_perm2413 {n : ℕ} (f : Fin n → Fin n → Fin n → Fin n → ℚ) :
    ∑ t ∈ dquad n, f t.2.1 t.2.2.2 t.1 t.2.2.1 = ∑ t ∈ dquad n, f t.1 t.2.1 t.2.2.1 t.2.2.2 := by
  refine Finset.sum_nbij' (fun t => (t.2.1, t.2.2.2, t.1, t.2.2.1)) (fun t => (t.2.2.1, t.1, t.2.2.2, t.2.1))
    ?_ ?_ ?_ ?_ ?_ <;> intro a ha <;>
    first
      | rfl
      | (simp only [dquad, Finset.mem_filter, Finset.mem_univ, true_and, ne_comm] at ha ⊢;
         tauto)

/-- Permuting the axes preserves the distinct-quadruple sum. -/
lemma sumD4_perm2431 {n : ℕ} (f : Fin n → Fin n → Fin n → Fin n → ℚ) :
    ∑ t ∈ dquad n, f t.2.1 t.2.2.2 t.2.2.1 t.1 = ∑ t ∈ dquad n, f t.1 t.2.1 t.2.2.1 t.2.2.2 := by
  refine Finset.sum_nbij' (fun t => (t.2.1, t.2.2.2, t.2.2.1, t.1)) (fun t => (t.2.2.2, t.1, t.2.2.1, t.2.1))
    ?_ ?_ ?_ ?_ ?_ <;> intro a ha <;>
    first
      | rfl
      | (simp only [dquad, Finset.mem_filter, Finset.mem_univ, true_and, ne_comm] at ha ⊢;
         tauto)

/-- Permuting the axes preserves the distinct-quadruple sum. -/
lemma sumD4_perm3124 {n : ℕ} (f : Fin n → Fin n → Fin n → Fin n → ℚ) :
    ∑ t ∈ dquad n, f t.2.2.1 t.1 t.2.1 t.2.2.2 = ∑ t ∈ dquad n, f t.1 t.2.1 t.2.2.1 t.2.2.2 := by
  refine Finset.sum_nbij' (fun t => (t.2.2.1, t.1, t.2.1, t.2.2.2)) (fun t => (t.2.1, t.2.2.1, t.1, t.2.2.2))
    ?_ ?_ ?_ ?_ ?_ <;> intro a ha <;>
    first
      | rfl
      | (simp only [dquad, Finset.mem_filter, Finset.mem_univ, true_and, ne_comm] at ha ⊢;
         tauto)

/-- Permuting the axes preserves the distinct-quadruple sum. -/
lemma sumD4_perm3142 {n : ℕ} (f : Fin n → Fin n → Fin n → Fin n → ℚ) :
    ∑ t ∈ dquad n, f t.2.2.1 t.1 t.2.2.2 t.2.1 = ∑ t ∈ dquad n, f t.1 t.2.1 t.2.2.1 t.2.2.2 := by
  refine Finset.sum_nbij' (fun t => (t.2.2.1, t.1, t.2.2.2, t.2.1)) (fun t => (t.2.1, t.2.2.2, t.1, t.2.2.1))
    ?_ ?_ ?_ ?_ ?_ <;> intro a ha <;>
    first
      | rfl
      | (simp only [dquad, Finset.mem_filter, Finset.mem_univ, true_and, ne_comm] at ha ⊢;
         tauto)

/-- Permuting the axes preserves the distinct-quadruple sum. -/
lemma sumD4_perm3214 {n : ℕ} (f : Fin n → Fin n → Fin n → Fin n → ℚ) :
    ∑ t ∈ dquad n, f t.2.2.1 t.2.1 t.1 t.2.2.2 = ∑ t ∈ dquad n, f t.1 t.2.1 t.2.2.1 t.2.2.2 := by
  refine Finset.sum_nbij' (fun t => (t.2.2.1, t.2.1, t.1, t.2.2.2)) (fun t => (t.2.2.1, t.2.1, t.1, t.2.2.2))
    ?_ ?_ ?_ ?_ ?_ <;> intro a ha <;>
    first
      | rfl
      | (simp only [dquad, Finset.mem_filter, Finset.mem_univ, true_and, ne_comm] at ha ⊢;
         tauto)

/-- Permuting the axes preserves the distinct-quadruple sum. -/
lemma sumD4_perm3241 {n : ℕ} (f : Fin n → Fin n → Fin n → Fin n → ℚ) :
    ∑ t ∈ dquad n, f t.2.2.1 t.2.1 t.2.2.2 t.1 = ∑ t ∈ dquad n, f t.1 t.2.1 t.2.2.1 t.2.2.2 := by
  refine Finset.sum_nbij' (fun t => (t.2.2.1, t.2.1, t.2.2.2, t.1)) (fun t => (t.2.2.2, t.2.1, t.1, t.2.2.1))
    ?_ ?_ ?_ ?_ ?_ <;> intro a ha <;>
    first
      | rfl
      | (simp only [dquad, Finset.mem_filter, Finset.mem_univ, true_and, ne_comm] at ha ⊢;
         tauto)

/-- Permuting the axes preserves the distinct-quadruple sum. -/
lemma sumD4_perm3412 {n : ℕ} (f : Fin n → Fin n → Fin n → Fin n → ℚ) :
    ∑ t ∈ dquad n, f t.2.2.1 t.2.2.2 t.1 t.2.1 = ∑ t ∈ dquad n, f t.1 t.2.1 t.2.2.1 t.2.2.2 := by
  refine Finset.sum_nbij' (fun t => (t.2.2.1, t.2.2.2, t.1, t.2.1)) (fun t => (t.2.2.1, t.2.2.2, t.1, t.2.1))
    ?_ ?_ ?_ ?_ ?_ <;> intro a ha <;>
    first
      | rfl
      | (simp only [dquad, Finset.mem_filter, Finset.mem_univ, true_and, ne_comm] at ha ⊢;
         tauto)

/-- Permuting the axes preserves the distinct-quadruple sum. -/
lemma sumD4_perm3421 {n : ℕ} (f : Fin n → Fin n → Fin n → Fin n → ℚ) :
    ∑ t ∈ dquad n, f t.2.2.1 t.2.2.2 t.2.1 t.1 = ∑ t ∈ dquad n, f t.1 t.2.1 t.2.2.1 t.2.2.2 := by
  refine Finset.sum_nbij' (fun t => (t.2.2.1, t.2.2.2, t.2.1, t.1)) (fun t => (t.2.2.2, t.2.2.1, t.1, t.2.1))
    ?_ ?_ ?_ ?_ ?_ <;> intro a ha <;>
    first
      | rfl
      | (simp only [dquad, Finset.mem_filter, Finset.mem_univ, true_and, ne_comm] at ha ⊢;
         tauto)

/-- Permuting the axes preserves the distinct-quadruple sum. -/
lemma sumD4_perm4123 {n : ℕ} (f : Fin n → Fin n → Fin n → Fin n → ℚ) :
    ∑ t ∈ dquad n, f t.2.2.2 t.1 t.2.1 t.2.2.1 = ∑ t ∈ dquad n, f t.1 t.2.1 t.2.2.1 t.2.2.2 := by
  refine Finset.sum_nbij' (fun t => (t.2.2.2, t.1, t.2.1, t.2.2.1)) (fun t => (t.2.1, t.2.2.1, t.2.2.2, t.1))
    ?_ ?_ ?_ ?_ ?_ <;> intro a ha <;>
    first
      | rfl
      | (simp only [dquad, Finset.mem_filter, Finset.mem_univ, true_and, ne_comm] at ha ⊢;
         tauto)

/-- Permuting the axes preserves the distinct-quadruple sum. -/
lemma sumD4_perm4132 {n : ℕ} (f : Fin n → Fin n → Fin n → Fin n → ℚ) :
    ∑ t ∈ dquad n, f t.2.2.2 t.1 t.2.2.1 t.2.1 = ∑ t ∈ dquad n, f t.1 t.2.1 t.2.2.1 t.2.2.2 := by
  refine Finset.sum_nbij' (fun t => (t.2.2.2, t.1, t.2.2.1, t.2.1)) (fun t => (t.2.1, t.2.2.2, t.2.2.1, t.1))
    ?_ ?_ ?_ ?_ ?_ <;> intro a ha <;>
    first
      | rfl
      | (simp only [dquad, Finset.mem_filter, Finset.mem_univ, true_and, ne_comm] at ha ⊢;
         tauto)

/-- Permuting the axes preserves the distinct-quadruple sum. -/
lemma sumD4_perm4213 {n : ℕ} (f : Fin n → Fin n → Fin n → Fin n → ℚ) :
    ∑ t ∈ dquad n, f t.2.2.2 t.2.1 t.1 t.2.2.1 = ∑ t ∈ dquad n, f t.1 t.2.1 t.2.2.1 t.2.2.2 := by
  refine Finset.sum_nbij' (fun t => (t.2.2.2, t.2.1, t.1, t.2.2.1)) (fun t => (t.2.2.1, t.2.1, t.2.2.2, t.1))
    ?_ ?_ ?_ ?_ ?_ <;> intro a ha <;>
    first
      | rfl
      | (simp only [dquad, Finset.mem_filter, Finset.mem_univ, true_and, ne_comm] at ha ⊢;
         tauto)

/-- Permuting the axes preserves the distinct-quadruple sum. -/
lemma sumD4_perm4231 {n : ℕ} (f : Fin n → Fin n → Fin n → Fin n → ℚ) :
    ∑ t ∈ dquad n, f t.2.2.2 t.2.1 t.2.2.1 t.1 = ∑ t ∈ dquad n, f t.1 t.2.1 t.2.2.1 t.2.2.2 := by
  refine Finset.sum_nbij' (fun t => (t.2.2.2, t.2.1, t.2.2.1, t.1)) (fun t => (t.2.2.2, t.2.1, t.2.2.1, t.1))
    ?_ ?_ ?_ ?_ ?_ <;> intro a ha <;>
    first
      | rfl
      | (simp only [dquad, Finset.mem_filter, Finset.mem_univ, true_and, ne_comm] at ha ⊢;
         tauto)

/-- Permuting the axes preserves the distinct-quadruple sum. -/
lemma sumD4_perm4312 {n : ℕ} (f : Fin n → Fin n → Fin n → Fin n → ℚ) :
    ∑ t ∈ dquad n, f t.2.2.2 t.2.2.1 t.1 t.2.1 = ∑ t ∈ dquad n, f t.1 t.2.1 t.2.2.1 t.2.2.2 := by
  refine Finset.sum_nbij' (fun t => (t.2.2.2, t.2.2.1, t.1, t.2.1)) (fun t => (t.2.2.1, t.2.2.2, t.2.1, t.1))
    ?_ ?_ ?_ ?_ ?_ <;> intro a ha <;>
    first
      | rfl
      | (simp only [dquad, Finset.mem_filter, Finset.mem_univ, true_and, ne_comm] at ha ⊢;
         tauto)

/-- Permuting the axes preserves the distinct-quadruple sum. -/
lemma sumD4_perm4321 {n : ℕ} (f : Fin n → Fin n → Fin n → Fin n → ℚ) :
    ∑ t ∈ dquad n, f t.2.2.2 t.2.2.1 t.2.1 t.1 = ∑ t ∈ dquad n, f t.1 t.2.1 t.2.2.1 t.2.2.2 := by
  refine Finset.sum_nbij' (fun t => (t.2.2.2, t.2.2.1, t.2.1, t.1)) (fun t => (t.2.2.2, t.2.2.1, t.2.1, t.1))
    ?_ ?_ ?_ ?_ ?_ <;> intro a ha <;>
    first
      | rfl
      | (simp only [dquad, Finset.mem_filter, Finset.mem_univ, true_and, ne_comm] at ha ⊢;
         tauto)


/-- C1 counterexample: with weights [2, 3, 4] and coefficient list
[1, 2, 1, 1] the stated formula
OrderTensor(2)[i,j] = RankWeight(2)[j] * OrderTensor(1)[i] / (1 - RankWeight(2)[j])
fails at (i, j) = (0, 1): the code stores 1/15 there while the formula
gives 1/10. -/
theorem c1_counterexample :
    (0 : Fin 3) ≠ 1 ∧
    p_ij (rankWeight (powVec ![2, 3, 4] 1)) (rankWeight (powVec ![2, 3, 4] 2)) 0 1 ≠
      rankWeight (powVec ![2, 3, 4] 2) 1 * rankWeight (powVec ![2, 3, 4] 1) 0 /
        (1 - rankWeight (powVec ![2, 3, 4] 2) 1) := by
  refine ⟨by decide, ?_⟩
  simp +decide [p_ij, rankWeight, powVec, Fin.sum_univ_succ]
  norm_num

/-- C1 amended: for every weight vector and every pair of per-level powered
vectors, the second-order tensor satisfies, for i distinct from j,
OrderTensor(2)[i,j] = RankWeight(2)[i] * OrderTensor(1)[j] / (1 - RankWeight(2)[j])
(the i and j roles of the two numerator factors are swapped relative to the
claim; equivalently axis 1 of the stored array is the 1st-place axis and
axis 0 the 2nd-place axis), and every diagonal entry is exactly 0. -/
theorem c1_amended {n : ℕ} (v1 v2 : Fin n → ℚ) (i j : Fin n) (hij : i ≠ j) :
    p_ij (rankWeight v1) (rankWeight v2) i j =
      rankWeight v2 i * rankWeight v1 j / (1 - rankWeight v2 j) ∧
    ∀ k, p_ij (rankWeight v1) (rankWeight v2) k k = 0 := by
  refine ⟨?_, fun k => if_pos rfl⟩
  rw [p_ij, if_neg hij, mul_div_assoc]

/-- C1 amended witness at weights [2, 3, 4] with coefficients [1, 2]. -/
theorem c1_amended_witness :
    (0 : Fin 3) ≠ 1 ∧
    (p_ij (rankWeight (powVec ![2, 3, 4] 1)) (rankWeight (powVec ![2, 3, 4] 2)) 0 1 =
      rankWeight (powVec ![2, 3, 4] 2) 0 * rankWeight (powVec ![2, 3, 4] 1) 1 /
        (1 - rankWeight (powVec ![2, 3, 4] 2) 1) ∧
    ∀ k, p_ij (rankWeight (powVec ![2, 3, 4] 1)) (rankWeight (powVec ![2, 3, 4] 2)) k k = 0) :=
  ⟨by decide, c1_amended (powVec ![2, 3, 4] 1) (powVec ![2, 3, 4] 2) 0 1 (by decide)⟩

/-- C2: for positive per-level powered weight vectors (covering every
correction-coefficient list applied to a positive weight vector), the
order tensor of each computed level k in 1..4 sums to 1 over all index
tuples with pairwise-distinct entries whenever n exceeds k, for any
contents of the unwritten division cells; the level-3 and level-4 sums
additionally assume their own conditional denominators at distinct index
tuples are nonzero, so the level-1 and level-2 sums hold at every valid
n with no denominator hypothesis. -/
theorem c2_order_tensor_sums {n : ℕ} (v1 v2 v3 v4 : Fin n → ℚ)
    (g3 : Fin n → Fin n → ℚ) (g4 : Fin n → Fin n → Fin n → ℚ)
    (h1 : ∀ i, 0 < v1 i) (h2 : ∀ i, 0 < v2 i) (h3 : ∀ i, 0 < v3 i) (h4 : ∀ i, 0 < v4 i) :
    (1 < n → ∑ i, rankWeight v1 i = 1) ∧
    (2 < n → sumD2 (p_ij (rankWeight v1) (rankWeight v2)) = 1) ∧
    (3 < n → (∀ i j, i ≠ j → denom3 (rankWeight v3) i j ≠ 0) →
      sumD3 (p_ijk (rankWeight v1) (rankWeight v2) (rankWeight v3) g3) = 1) ∧
    (4 < n → (∀ i j, i ≠ j → denom3 (rankWeight v3) i j ≠ 0) →
      (∀ i j k, i ≠ j → i ≠ k → j ≠ k → denom4 (rankWeight v4) i j k ≠ 0) →
      sumD4 (p_ijkl (rankWeight v1) (rankWeight v2) (rankWeight v3) (rankWeight v4) g3 g4)
        = 1) := by
  refine ⟨fun hn => ?_, fun hn => ?_, fun hn hd3 => ?_, fun hn hd3 hd4 => ?_⟩
  · exact sum_rankWeight v1 (ne_of_gt (sum_pos_of_pos v1 h1 (by omega)))
  · exact sumD2_p_ij_one _ _
      (sum_rankWeight v1 (ne_of_gt (sum_pos_of_pos v1 h1 (by omega))))
      (sum_rankWeight v2 (ne_of_gt (sum_pos_of_pos v2 h2 (by omega))))
      (one_sub_rankWeight_ne v2 h2 (by omega))
  · exact sumD3_p_ijk_one _ _ _ g3
      (sum_rankWeight v1 (ne_of_gt (sum_pos_of_pos v1 h1 (by omega))))
      (sum_rankWeight v2 (ne_of_gt (sum_pos_of_pos v2 h2 (by omega))))
      (one_sub_rankWeight_ne v2 h2 (by omega))
      (sum_rankWeight v3 (ne_of_gt (sum_pos_of_pos v3 h3 (by omega)))) hd3
  · exact sumD4_p_ijkl_one _ _ _ _ g3 g4
      (sum_rankWeight v1 (ne_of_gt (sum_pos_of_pos v1 h1 (by omega))))
      (sum_rankWeight v2 (ne_of_gt (sum_pos_of_pos v2 h2 (by omega))))
      (one_sub_rankWeight_ne v2 h2 (by omega))
      (sum_rankWeight v3 (ne_of_gt (sum_pos_of_pos v3 h3 (by omega)))) hd3
      (sum_rankWeight v4 (ne_of_gt (sum_pos_of_pos v4 h4 (by omega)))) hd4

/-- C2 witness: five competitors of powered weight 1 at every level. -/
theorem c2_order_tensor_sums_witness :
    (∀ i, 0 < ones5 i) ∧
    ((1 < 5 → ∑ i, rankWeight ones5 i = 1) ∧
     (2 < 5 → sumD2 (p_ij (rankWeight ones5) (rankWeight ones5)) = 1) ∧
     (3 < 5 → (∀ i j, i ≠ j → denom3 (rankWeight ones5) i j ≠ 0) →
       sumD3 (p_ijk (rankWeight ones5) (rankWeight ones5) (rankWeight ones5) zg3) = 1) ∧
     (4 < 5 → (∀ i j, i ≠ j → denom3 (rankWeight ones5) i j ≠ 0) →
       (∀ i j k, i ≠ j → i ≠ k → j ≠ k → denom4 (rankWeight ones5) i j k ≠ 0) →
       sumD4 (p_ijkl (rankWeight ones5) (rankWeight ones5) (rankWeight ones5)
         (rankWeight ones5) zg3 zg4) = 1)) := by
  have hpos : ∀ i, 0 < ones5 i := fun _ => one_pos
  exact ⟨hpos, c2_order_tensor_sums ones5 ones5 ones5 ones5 zg3 zg4 hpos hpos hpos hpos⟩

/-- C3: evaluation at the failing input.  With win odds [4, 4/3, 4/3, 4/3]
(all above 1) and default coefficients, the level-3 denominator at the
coinciding leading pair (0, 0) is zero, so the np.divide where-mask skips
that cell and the buffer content g leaks into the repeated-index tierce
entry [0, 0, 1]: with cell content 6 the entry equals 1, not 0. -/
theorem c3_bug_eval :
    denom3 (rankWeight ![(4 : ℚ), 4/3, 4/3, 4/3]) 0 0 = 0 ∧
    tierce (rankWeight ![(4 : ℚ), 4/3, 4/3, 4/3]) (rankWeight ![(4 : ℚ), 4/3, 4/3, 4/3])
      (rankWeight ![(4 : ℚ), 4/3, 4/3, 4/3]) (fun _ _ => 6) 0 0 1 = 1 := by
  constructor
  · simp [denom3, rankWeight, Fin.sum_univ_succ]
    norm_num
  · simp +decide [tierce, p_ijk, comp3, denom3, rankWeight, Fin.sum_univ_succ]
    norm_num

/-- C4 counterexample: the claim quantifies over all index pairs of the
denominator, including a coinciding pair.  With win odds [5, 5/3, 5/3, 5/3]
(four competitors, so the level-3 computation is reached by tierce and the
other level-3 pools) the level-3 denominator at (0, 0) is zero, yet the
order-tensor entry [0, 0, 1] is the unwritten buffer cell times
RankWeight(3)[1], which is nonzero when the buffer held 4 — not the 0 the
claim promises. -/
theorem c4_counterexample :
    denom3 (rankWeight ![(5 : ℚ), 5/3, 5/3, 5/3]) 0 0 = 0 ∧
    p_ijk (rankWeight ![(5 : ℚ), 5/3, 5/3, 5/3]) (rankWeight ![(5 : ℚ), 5/3, 5/3, 5/3])
      (rankWeight ![(5 : ℚ), 5/3, 5/3, 5/3]) (fun _ _ => 4) 0 0 1 ≠ 0 := by
  constructor
  · simp [denom3, rankWeight, Fin.sum_univ_succ]
    norm_num
  · simp +decide [p_ijk, comp3, denom3, rankWeight, Fin.sum_univ_succ]
    norm_num

/-- C4 amended: with nonnegative powered weights, whenever a level-3 or
level-4 conditional denominator at a tuple of pairwise-distinct indices
equals 0, every order-tensor entry extending that tuple is exactly 0
(independently of the unwritten division cells), so the degenerate case
yields zero-probability entries rather than an error. -/
theorem c4_amended {n : ℕ} (p q r : Fin n → ℚ) (v3 v4 : Fin n → ℚ)
    (g3 : Fin n → Fin n → ℚ) (g4 : Fin n → Fin n → Fin n → ℚ)
    (h3 : ∀ i, 0 ≤ v3 i) (h4 : ∀ i, 0 ≤ v4 i) :
    (∀ i j, i ≠ j → denom3 (rankWeight v3) i j = 0 →
      ∀ k, p_ijk p q (rankWeight v3) g3 i j k = 0) ∧
    (∀ i j k, i ≠ j → i ≠ k → j ≠ k → denom4 (rankWeight v4) i j k = 0 →
      ∀ l, p_ijkl p q r (rankWeight v4) g3 g4 i j k l = 0) := by
  constructor
  · intro i j hij hd k
    rw [p_ijk]
    by_cases hjk : j = k
    · rw [if_pos hjk]
    · rw [if_neg hjk]
      by_cases hik : i = k
      · rw [if_pos hik]
      · rw [if_neg hik]
        rw [rankWeight_eq_zero_of_denom3 v3 h3 i j hij hd k (Ne.symm hik) (Ne.symm hjk),
          mul_zero]
  · intro i j k hij hik hjk hd l
    rw [p_ijkl]
    by_cases hmask : i = j ∨ i = k ∨ i = l ∨ j = k ∨ j = l ∨ k = l
    · rw [if_pos hmask]
    · rw [if_neg hmask]
      push_neg at hmask
      rw [rankWeight_eq_zero_of_denom4 v4 h4 i j k hij hik hjk hd l
        (Ne.symm hmask.2.2.1) (Ne.symm hmask.2.2.2.2.1) (Ne.symm hmask.2.2.2.2.2),
        mul_zero]

/-- C4 amended witness: powered weights [1, 1, 0, 0] are nonnegative and
the theorem applies; at the distinct pair (0, 1) the denominator is zero
and all extending entries vanish. -/
theorem c4_amended_witness :
    (∀ i, 0 ≤ (![(1 : ℚ), 1, 0, 0] : Fin 4 → ℚ) i) ∧
    (∀ i j, i ≠ j → denom3 (rankWeight ![(1 : ℚ), 1, 0, 0]) i j = 0 →
      ∀ k, p_ijk (rankWeight ![(1 : ℚ), 1, 0, 0]) (rankWeight ![(1 : ℚ), 1, 0, 0])
        (rankWeight ![(1 : ℚ), 1, 0, 0]) (fun _ _ => 7) i j k = 0) := by
  have hv : ∀ i, 0 ≤ (![(1 : ℚ), 1, 0, 0] : Fin 4 → ℚ) i := by
    intro i
    fin_cases i <;> norm_num
  exact ⟨hv, (c4_amended (rankWeight ![(1 : ℚ), 1, 0, 0]) (rankWeight ![(1 : ℚ), 1, 0, 0])
    (rankWeight ![(1 : ℚ), 1, 0, 0]) ![(1 : ℚ), 1, 0, 0] ![(1 : ℚ), 1, 0, 0]
    (fun _ _ => 7) (fun _ _ _ => 7) hv hv).1⟩

/-- A third-order entry with a repeated index vanishes provided the
level-3 denominators at coinciding pairs are nonzero: two of the three
coincidences are masked by the source, and the unmasked leading pair
gives 0 because the second-order diagonal is 0. -/
lemma p_ijk_zero_of_repeat {n : ℕ} (p q r : Fin n → ℚ) (g3 : Fin n → Fin n → ℚ)
    (hd : ∀ a, denom3 r a a ≠ 0) (a b c : Fin n)
    (h : ¬(a ≠ b ∧ a ≠ c ∧ b ≠ c)) : p_ijk p q r g3 a b c = 0 := by
  rw [p_ijk]
  by_cases hbc : b = c
  · rw [if_pos hbc]
  · rw [if_neg hbc]
    by_cases hac : a = c
    · rw [if_pos hac]
    · rw [if_neg hac]
      have hab : a = b := by tauto
      rw [← hab, comp3, if_neg (hd a), p_ij, if_pos rfl, zero_div, zero_mul]

/-- With every level-3 denominator nonzero (coinciding pairs included),
the full triple sum of the third-order tensor equals its distinct sum,
hence 1. -/
lemma sum_all_p_ijk {n : ℕ} (p q r : Fin n → ℚ) (g3 : Fin n → Fin n → ℚ)
    (hp : ∑ i, p i = 1) (hq : ∑ i, q i = 1) (hq1 : ∀ j, 1 - q j ≠ 0)
    (hr : ∑ i, r i = 1) (hd3 : ∀ i j, denom3 r i j ≠ 0) :
    ∑ a, ∑ b, ∑ c, p_ijk p q r g3 a b c = 1 := by
  have hguard : ∀ a b c : Fin n, p_ijk p q r g3 a b c
      = (if a ≠ b ∧ a ≠ c ∧ b ≠ c then p_ijk p q r g3 a b c else 0) := by
    intro a b c
    by_cases h : a ≠ b ∧ a ≠ c ∧ b ≠ c
    · rw [if_pos h]
    · rw [if_neg h, p_ijk_zero_of_repeat p q r g3 (fun a => hd3 a a) a b c h]
  rw [Finset.sum_congr rfl fun a _ => Finset.sum_congr rfl fun b _ =>
    Finset.sum_congr rfl fun c _ => hguard a b c]
  exact canon3_p_ijk p q r g3 hp hq hq1 hr fun i j _ => hd3 i j

/-- Every diagonal entry of the place_q output is 0: all six constituent
terms vanish there thanks to the second-order diagonal mask and the two
third-order masks. -/
lemma place_q_diag_eq_zero {n : ℕ} (p q r : Fin n → ℚ) (g3 : Fin n → Fin n → ℚ)
    (i : Fin n) : place_q p q r g3 i i = 0 := by
  have h1 : ∀ b : Fin n, p_ijk p q r g3 i b i = 0 := by
    intro b
    rw [p_ijk]
    by_cases hbi : b = i
    · rw [if_pos hbi]
    · rw [if_neg hbi, if_pos rfl]
  have h2 : ∀ a : Fin n, p_ijk p q r g3 a i i = 0 := by
    intro a
    rw [p_ijk, if_pos rfl]
  rw [place_q, p_ij, if_pos rfl,
    Finset.sum_congr rfl fun b _ => h1 b, Finset.sum_congr rfl fun a _ => h2 a]
  simp

/-- C5 helper: the place vector sums to 3 (first, second and third place
probabilities each total 1) when no level-3 denominator vanishes. -/
lemma sum_place_eq_three {n : ℕ} (p q r : Fin n → ℚ) (g3 : Fin n → Fin n → ℚ)
    (hp : ∑ i, p i = 1) (hq : ∑ i, q i = 1) (hq1 : ∀ j, 1 - q j ≠ 0)
    (hr : ∑ i, r i = 1) (hd3 : ∀ i j, denom3 r i j ≠ 0) :
    ∑ i, place p q r g3 i = 3 := by
  have hfull : ∑ a, ∑ b, ∑ c, p_ijk p q r g3 a b c = 1 :=
    sum_all_p_ijk p q r g3 hp hq hq1 hr hd3
  have hmarg : ∑ i, ∑ a, ∑ b, p_ijk p q r g3 a b i = 1 := by
    have hswap1 : (∑ i, ∑ a, ∑ b, p_ijk p q r g3 a b i)
        = ∑ a, ∑ i, ∑ b, p_ijk p q r g3 a b i := Finset.sum_comm
    have hswap2 : (∑ a, ∑ i, ∑ b, p_ijk p q r g3 a b i)
        = ∑ a, ∑ b, ∑ i, p_ijk p q r g3 a b i :=
      Finset.sum_congr rfl fun a _ => Finset.sum_comm
    rw [hswap1, hswap2]
    exact hfull
  simp only [place, Finset.sum_add_distrib]
  rw [hp, sum_sum_p_ij p q hp hq hq1, hmarg]
  norm_num

/-- C5 helper: the place_q output summed over all off-diagonal entries is
6 (each of its six constituent marginals totals 1) when no level-3
denominator vanishes. -/
lemma sum_place_q_eq_six {n : ℕ} (p q r : Fin n → ℚ) (g3 : Fin n → Fin n → ℚ)
    (hp : ∑ i, p i = 1) (hq : ∑ i, q i = 1) (hq1 : ∀ j, 1 - q j ≠ 0)
    (hr : ∑ i, r i = 1) (hd3 : ∀ i j, denom3 r i j ≠ 0) :
    sumD2 (place_q p q r g3) = 6 := by
  have hfull : ∑ a, ∑ b, ∑ c, p_ijk p q r g3 a b c = 1 :=
    sum_all_p_ijk p q r g3 hp hq hq1 hr hd3
  have e1 : ∑ i, ∑ j, p_ij p q i j = 1 := sum_sum_p_ij p q hp hq hq1
  have e2 : ∑ i, ∑ j, p_ij p q j i = 1 := by
    rw [Finset.sum_comm]
    exact e1
  have e3 : ∑ i, ∑ j, ∑ b, p_ijk p q r g3 i b j = 1 := by
    have h1 : (∑ i, ∑ j, ∑ b, p_ijk p q r g3 i b j)
        = ∑ i, ∑ b, ∑ j, p_ijk p q r g3 i b j :=
      Finset.sum_congr rfl fun i _ => Finset.sum_comm
    rw [h1]
    exact hfull
  have e4 : ∑ i, ∑ j, ∑ b, p_ijk p q r g3 j b i = 1 := by
    have h1 : (∑ i, ∑ j, ∑ b, p_ijk p q r g3 j b i)
        = ∑ j, ∑ i, ∑ b, p_ijk p q r g3 j b i := Finset.sum_comm
    have h2 : (∑ j, ∑ i, ∑ b, p_ijk p q r g3 j b i)
        = ∑ j, ∑ b, ∑ i, p_ijk p q r g3 j b i :=
      Finset.sum_congr rfl fun j _ => Finset.sum_comm
    rw [h1, h2]
    exact hfull
  have e5 : ∑ i, ∑ j, ∑ a, p_ijk p q r g3 a i j = 1 := by
    have h1 : (∑ i, ∑ j, ∑ a, p_ijk p q r g3 a i j)
        = ∑ i, ∑ a, ∑ j, p_ijk p q r g3 a i j :=
      Finset.sum_congr rfl fun i _ => Finset.sum_comm
    have h2 : (∑ i, ∑ a, ∑ j, p_ijk p q r g3 a i j)
        = ∑ a, ∑ i, ∑ j, p_ijk p q r g3 a i j := Finset.sum_comm
    rw [h1, h2]
    exact hfull
  have e6 : ∑ i, ∑ j, ∑ a, p_ijk p q r g3 a j i = 1 := by
    have h1 : (∑ i, ∑ j, ∑ a, p_ijk p q r g3 a j i)
        = ∑ i, ∑ a, ∑ j, p_ijk p q r g3 a j i :=
      Finset.sum_congr rfl fun i _ => Finset.sum_comm
    have h2 : (∑ i, ∑ a, ∑ j, p_ijk p q r g3 a j i)
        = ∑ a, ∑ i, ∑ j, p_ijk p q r g3 a j i := Finset.sum_comm
    have h3 : (∑ a, ∑ i, ∑ j, p_ijk p q r g3 a j i)
        = ∑ a, ∑ j, ∑ i, p_ijk p q r g3 a j i :=
      Finset.sum_congr rfl fun a _ => Finset.sum_comm
    rw [h1, h2, h3]
    exact hfull
  rw [sumD2_eq]
  have hguard : ∀ i j : Fin n,
      (if i ≠ j then place_q p q r g3 i j else 0) = place_q p q r g3 i j := by
    intro i j
    by_cases hij : i = j
    · subst hij
      rw [if_neg fun h => h rfl, place_q_diag_eq_zero]
    · rw [if_pos hij]
  rw [Finset.sum_congr rfl fun i _ => Finset.sum_congr rfl fun j _ => hguard i j]
  simp only [place_q, Finset.sum_add_distrib]
  rw [e1, e2, e3, e4, e5, e6]
  norm_num

/-- C5 counterexample: with valid win odds [2, 2, 4] (three competitors,
all above 1, default coefficients) the quinella output summed over all
ordered pairs of distinct indices, that is over all off-diagonal entries,
is not 1 (it is 2, since the symmetrized matrix counts each unordered
pair twice). -/
theorem c5_counterexample :
    sumD2 (quinella (rankWeight ![(2 : ℚ), 2, 4]) (rankWeight ![(2 : ℚ), 2, 4])) ≠ 1 := by
  simp +decide [sumD2, dpair, Finset.sum_filter, Fintype.sum_prod_type, quinella, p_ij,
    rankWeight, Fin.sum_univ_succ]
  norm_num

/-- C5 amended: for every pool at its own validity threshold, the sum of
the pool output over all index tuples with pairwise-distinct indices
equals the number of finishing orders the pool aggregates, which is 1 for
the exact-order pools and larger for the symmetrized ones: win sums to 1;
quinella summed over all off-diagonal entries gives 2; tierce gives 1 and
trio 6 over distinct triples; the place vector sums to 3 and place_q
gives 6 over off-diagonal entries (these two additionally need the
level-3 denominators at coinciding pairs nonzero, since their marginal
sums traverse the unmasked leading diagonal); quartet gives 1 and first_4
24 over distinct quadruples.  Equivalently, each unordered selection of
competitors carries total probability 1 when counted once. -/
theorem c5_pool_sums {n : ℕ} (v1 v2 v3 v4 : Fin n → ℚ)
    (g3 : Fin n → Fin n → ℚ) (g4 : Fin n → Fin n → Fin n → ℚ)
    (h1 : ∀ i, 0 < v1 i) (h2 : ∀ i, 0 < v2 i) (h3 : ∀ i, 0 < v3 i) (h4 : ∀ i, 0 < v4 i) :
    (0 < n → ∑ i, winPool (rankWeight v1) i = 1) ∧
    (2 < n → sumD2 (quinella (rankWeight v1) (rankWeight v2)) = 2) ∧
    (3 < n → (∀ i j, i ≠ j → denom3 (rankWeight v3) i j ≠ 0) →
      sumD3 (tierce (rankWeight v1) (rankWeight v2) (rankWeight v3) g3) = 1 ∧
      sumD3 (trio (rankWeight v1) (rankWeight v2) (rankWeight v3) g3) = 6) ∧
    (3 < n → (∀ i j, denom3 (rankWeight v3) i j ≠ 0) →
      (∑ i, place (rankWeight v1) (rankWeight v2) (rankWeight v3) g3 i) = 3 ∧
      sumD2 (place_q (rankWeight v1) (rankWeight v2) (rankWeight v3) g3) = 6) ∧
    (4 < n → (∀ i j, i ≠ j → denom3 (rankWeight v3) i j ≠ 0) →
      (∀ i j k, i ≠ j → i ≠ k → j ≠ k → denom4 (rankWeight v4) i j k ≠ 0) →
      sumD4 (quartet (rankWeight v1) (rankWeight v2) (rankWeight v3) (rankWeight v4) g3 g4)
          = 1 ∧
      sumD4 (first_4 (rankWeight v1) (rankWeight v2) (rankWeight v3) (rankWeight v4) g3 g4)
          = 24) := by
  refine ⟨fun hn => ?_, fun hn => ?_, fun hn hd3 => ?_, fun hn hd3f => ?_,
    fun hn hd3 hd4 => ?_⟩
  · exact sum_rankWeight v1 (ne_of_gt (sum_pos_of_pos v1 h1 hn))
  · have hp : ∑ i, rankWeight v1 i = 1 :=
      sum_rankWeight v1 (ne_of_gt (sum_pos_of_pos v1 h1 (by omega)))
    have hq : ∑ i, rankWeight v2 i = 1 :=
      sum_rankWeight v2 (ne_of_gt (sum_pos_of_pos v2 h2 (by omega)))
    have hq1 : ∀ j, 1 - rankWeight v2 j ≠ 0 := one_sub_rankWeight_ne v2 h2 (by omega)
    have e2 : (∑ t ∈ dpair n, p_ij (rankWeight v1) (rankWeight v2) t.1 t.2) = 1 := by
      exact sumD2_p_ij_one _ _ hp hq hq1
    simp only [sumD2, quinella, Finset.sum_add_distrib]
    rw [sumD2_swap, e2]
    norm_num
  · have hp : ∑ i, rankWeight v1 i = 1 :=
      sum_rankWeight v1 (ne_of_gt (sum_pos_of_pos v1 h1 (by omega)))
    have hq : ∑ i, rankWeight v2 i = 1 :=
      sum_rankWeight v2 (ne_of_gt (sum_pos_of_pos v2 h2 (by omega)))
    have hq1 : ∀ j, 1 - rankWeight v2 j ≠ 0 := one_sub_rankWeight_ne v2 h2 (by omega)
    have hr : ∑ i, rankWeight v3 i = 1 :=
      sum_rankWeight v3 (ne_of_gt (sum_pos_of_pos v3 h3 (by omega)))
    have e3 : (∑ t ∈ dtriple n,
        p_ijk (rankWeight v1) (rankWeight v2) (rankWeight v3) g3 t.1 t.2.1 t.2.2) = 1 := by
      exact sumD3_p_ijk_one _ _ _ g3 hp hq hq1 hr hd3
    constructor
    · show sumD3 (p_ijk (rankWeight v1) (rankWeight v2) (rankWeight v3) g3) = 1
      exact sumD3_p_ijk_one _ _ _ g3 hp hq hq1 hr hd3
    · simp only [sumD3, trio, Finset.sum_add_distrib]
      rw [sumD3_perm132, sumD3_perm213, sumD3_perm231, sumD3_perm312, sumD3_perm321, e3]
      norm_num
  · have hp : ∑ i, rankWeight v1 i = 1 :=
      sum_rankWeight v1 (ne_of_gt (sum_pos_of_pos v1 h1 (by omega)))
    have hq : ∑ i, rankWeight v2 i = 1 :=
      sum_rankWeight v2 (ne_of_gt (sum_pos_of_pos v2 h2 (by omega)))
    have hq1 : ∀ j, 1 - rankWeight v2 j ≠ 0 := one_sub_rankWeight_ne v2 h2 (by omega)
    have hr : ∑ i, rankWeight v3 i = 1 :=
      sum_rankWeight v3 (ne_of_gt (sum_pos_of_pos v3 h3 (by omega)))
    exact ⟨sum_place_eq_three _ _ _ g3 hp hq hq1 hr hd3f,
      sum_place_q_eq_six _ _ _ g3 hp hq hq1 hr hd3f⟩
  · have hp : ∑ i, rankWeight v1 i = 1 :=
      sum_rankWeight v1 (ne_of_gt (sum_pos_of_pos v1 h1 (by omega)))
    have hq : ∑ i, rankWeight v2 i = 1 :=
      sum_rankWeight v2 (ne_of_gt (sum_pos_of_pos v2 h2 (by omega)))
    have hq1 : ∀ j, 1 - rankWeight v2 j ≠ 0 := one_sub_rankWeight_ne v2 h2 (by omega)
    have hr : ∑ i, rankWeight v3 i = 1 :=
      sum_rankWeight v3 (ne_of_gt (sum_pos_of_pos v3 h3 (by omega)))
    have hs : ∑ i, rankWeight v4 i = 1 :=
      sum_rankWeight v4 (ne_of_gt (sum_pos_of_pos v4 h4 (by omega)))
    have e4 : (∑ t ∈ dquad n,
        p_ijkl (rankWeight v1) (rankWeight v2) (rankWeight v3) (rankWeight v4) g3 g4
          t.1 t.2.1 t.2.2.1 t.2.2.2) = 1 := by
      exact sumD4_p_ijkl_one _ _ _ _ g3 g4 hp hq hq1 hr hd3 hs hd4
    constructor
    · show sumD4 (p_ijkl (rankWeight v1) (rankWeight v2) (rankWeight v3)
        (rankWeight v4) g3 g4) = 1
      exact sumD4_p_ijkl_one _ _ _ _ g3 g4 hp hq hq1 hr hd3 hs hd4
    · simp only [sumD4, first_4, Finset.sum_add_distrib]
      rw [sumD4_perm1243, sumD4_perm1324, sumD4_perm1342, sumD4_perm1423, sumD4_perm1432,
        sumD4_perm2134, sumD4_perm2143, sumD4_perm2314, sumD4_perm2341, sumD4_perm2413,
        sumD4_perm2431, sumD4_perm3124, sumD4_perm3142, sumD4_perm3214, sumD4_perm3241,
        sumD4_perm3412, sumD4_perm3421, sumD4_perm4123, sumD4_perm4132, sumD4_perm4213,
        sumD4_perm4231, sumD4_perm4312, sumD4_perm4321, e4]
      norm_num

/-- C5 amended witness: five competitors of powered weight 1 at every
level. -/
theorem c5_pool_sums_witness :
    (∀ i, 0 < ones5 i) ∧
    ((0 < 5 → ∑ i, winPool (rankWeight ones5) i = 1) ∧
     (2 < 5 → sumD2 (quinella (rankWeight ones5) (rankWeight ones5)) = 2) ∧
     (3 < 5 → (∀ i j, i ≠ j → denom3 (rankWeight ones5) i j ≠ 0) →
       sumD3 (tierce (rankWeight ones5) (rankWeight ones5) (rankWeight ones5) zg3) = 1 ∧
       sumD3 (trio (rankWeight ones5) (rankWeight ones5) (rankWeight ones5) zg3) = 6) ∧
     (3 < 5 → (∀ i j, denom3 (rankWeight ones5) i j ≠ 0) →
       (∑ i, place (rankWeight ones5) (rankWeight ones5) (rankWeight ones5) zg3 i) = 3 ∧
       sumD2 (place_q (rankWeight ones5) (rankWeight ones5) (rankWeight ones5) zg3) = 6) ∧
     (4 < 5 → (∀ i j, i ≠ j → denom3 (rankWeight ones5) i j ≠ 0) →
       (∀ i j k, i ≠ j → i ≠ k → j ≠ k → denom4 (rankWeight ones5) i j k ≠ 0) →
       sumD4 (quartet (rankWeight ones5) (rankWeight ones5) (rankWeight ones5)
           (rankWeight ones5) zg3 zg4) = 1 ∧
       sumD4 (first_4 (rankWeight ones5) (rankWeight ones5) (rankWeight ones5)
           (rankWeight ones5) zg3 zg4) = 24)) := by
  have hpos : ∀ i, 0 < ones5 i := fun _ => one_pos
  exact ⟨hpos, c5_pool_sums ones5 ones5 ones5 ones5 zg3 zg4 hpos hpos hpos hpos⟩

/-- When a level-3 denominator is nonzero the division output does not
depend on the unwritten-cell contents. -/
lemma comp3_g_irrel {n : ℕ} (p q r : Fin n → ℚ) (g3 g3h : Fin n → Fin n → ℚ)
    (i j : Fin n) (h : denom3 r i j ≠ 0) :
    comp3 p q r g3 i j = comp3 p q r g3h i j := by
  rw [comp3, comp3, if_neg h, if_neg h]

/-- Third-order entries do not depend on the unwritten-cell contents when
the corresponding denominator is nonzero. -/
lemma p_ijk_g_irrel {n : ℕ} (p q r : Fin n → ℚ) (g3 g3h : Fin n → Fin n → ℚ)
    (i j k : Fin n) (h : denom3 r i j ≠ 0) :
    p_ijk p q r g3 i j k = p_ijk p q r g3h i j k := by
  rw [p_ijk, p_ijk, comp3_g_irrel p q r g3 g3h i j h]

/-- The place output does not depend on the unwritten-cell contents when
every level-3 denominator is nonzero. -/
lemma place_g_irrel {n : ℕ} (p q r : Fin n → ℚ) (g3 g3h : Fin n → Fin n → ℚ)
    (hden : ∀ a b, denom3 r a b ≠ 0) (i : Fin n) :
    place p q r g3 i = place p q r g3h i := by
  have h : (∑ a, ∑ b, p_ijk p q r g3 a b i) = ∑ a, ∑ b, p_ijk p q r g3h a b i :=
    Finset.sum_congr rfl fun a _ => Finset.sum_congr rfl fun b _ =>
      p_ijk_g_irrel p q r g3 g3h a b i (hden a b)
  rw [place, place, h]

/-- The weight vector of the scenario sums to 1, so normalization fixes it. -/
lemma rankWeight_w7 : rankWeight w7 = w7 := by
  funext i
  show w7 i / (∑ j, w7 j) = w7 i
  rw [show (∑ j, w7 j) = 1 by norm_num [w7, Fin.sum_univ_succ], div_one]

/-- No level-3 denominator vanishes in the place scenario. -/
lemma w7_denom3_ne : ∀ a b : Fin 7, denom3 (rankWeight w7) a b ≠ 0 := by
  have hbound : ∀ x : Fin 7, rankWeight w7 x ≤ 3/10 := by
    intro x
    rw [rankWeight_w7]
    fin_cases x <;> norm_num [w7]
  intro a b
  have ha := hbound a
  have hb := hbound b
  have : 0 < denom3 (rankWeight w7) a b := by
    rw [denom3]
    linarith
  exact ne_of_gt this

/-- Literal seven-entry vectors evaluate at index 2 by reduction. -/
lemma cons_val_two7 {α : Type} (a b c d e f g : α) :
    (![a, b, c, d, e, f, g] : Fin 7 → α) 2 = c := rfl

/-- Literal seven-entry vectors evaluate at index 3 by reduction. -/
lemma cons_val_three7 {α : Type} (a b c d e f g : α) :
    (![a, b, c, d, e, f, g] : Fin 7 → α) 3 = d := rfl

/-- Literal seven-entry vectors evaluate at index 4 by reduction. -/
lemma cons_val_four7 {α : Type} (a b c d e f g : α) :
    (![a, b, c, d, e, f, g] : Fin 7 → α) 4 = e := rfl

/-- Literal seven-entry vectors evaluate at index 5 by reduction. -/
lemma cons_val_five7 {α : Type} (a b c d e f g : α) :
    (![a, b, c, d, e, f, g] : Fin 7 → α) 5 = f := rfl

/-- Literal seven-entry vectors evaluate at index 6 by reduction. -/
lemma cons_val_six7 {α : Type} (a b c d e f g : α) :
    (![a, b, c, d, e, f, g] : Fin 7 → α) 6 = g := rfl

set_option maxHeartbeats 4000000 in
/-- C6: with the win weights of the scenario and default coefficients, the
place output is entrywise within 1/10000 of the stated target vector, for
any contents of the unwritten division cells (none is reached here). -/
theorem c6_place_scenario (g3 : Fin 7 → Fin 7 → ℚ) (i : Fin 7) :
    |place (rankWeight (powVec w7 1)) (rankWeight (powVec w7 1)) (rankWeight (powVec w7 1))
        g3 i - placeTarget i| ≤ 1/10000 := by
  have hw : powVec w7 1 = w7 := by
    funext m
    simp [powVec]
  rw [hw,
    place_g_irrel (rankWeight w7) (rankWeight w7) (rankWeight w7) g3 zg7 w7_denom3_ne i,
    rankWeight_w7]
  fin_cases i <;>
    · simp +decide [place, p_ij, p_ijk, comp3, denom3, w7, placeTarget, zg7,
        Fin.sum_univ_succ, cons_val_two7, cons_val_three7, cons_val_four7,
        cons_val_five7, cons_val_six7]
      norm_num [abs_le]

/-- C9: for a validly constructed bettor (matching lengths, the source sum
check passing, all odds above 1) with at least one competitor, if every
expected return odds times prob is at most 1, transform returns the zero
proportion for every competitor. -/
theorem c9_no_edge (odds prob : List ℚ) (hlen : odds.length = prob.length)
    (hn : 0 < odds.length) (hsum : ¬ prob.sum - 1 > 1000000)
    (hodds : ∀ o ∈ odds, 1 < o)
    (hle : ∀ x ∈ List.zipWith (· * ·) odds prob, x ≤ 1) :
    kellyTransform odds prob = some (List.replicate odds.length 0) := by
  have hlen2 : (List.zipWith (· * ·) odds prob).length = odds.length := by
    rw [List.length_zipWith, hlen, min_self]
  have hperm : (argsortDesc (List.zipWith (· * ·) odds prob)).Perm
      (List.range (List.zipWith (· * ·) odds prob).length) :=
    List.perm_insertionSort _ _
  have hne : argsortDesc (List.zipWith (· * ·) odds prob) ≠ [] := by
    intro h
    rw [h] at hperm
    have hl := hperm.length_eq
    rw [List.length_nil, List.length_range, hlen2] at hl
    omega
  obtain ⟨i0, rest, hcons⟩ := List.exists_cons_of_ne_nil hne
  have hi0 : i0 < (List.zipWith (· * ·) odds prob).length := by
    have hmem : i0 ∈ List.range (List.zipWith (· * ·) odds prob).length :=
      hperm.subset (by rw [hcons]; exact List.mem_cons_self i0 rest)
    exact List.mem_range.mp hmem
  have hgd : (List.zipWith (· * ·) odds prob).getD i0 0 ≤ 1 := by
    rw [List.getD_eq_getElem _ _ hi0]
    exact hle _ (List.getElem_mem hi0)
  unfold kellyTransform
  rw [hcons]
  simp only [kellyGo]
  rw [if_pos hgd]

/-- C9 witness at odds [2, 2] and probabilities [1/2, 1/2]: both expected
returns equal 1, so there is no edge and both proportions are 0. -/
theorem c9_no_edge_witness :
    ([(2 : ℚ), 2].length = [(1 : ℚ)/2, 1/2].length) ∧
    (0 < [(2 : ℚ), 2].length) ∧
    (¬ ([(1 : ℚ)/2, 1/2] : List ℚ).sum - 1 > 1000000) ∧
    (∀ o ∈ [(2 : ℚ), 2], 1 < o) ∧
    (∀ x ∈ List.zipWith (· * ·) [(2 : ℚ), 2] [(1 : ℚ)/2, 1/2], x ≤ 1) ∧
    kellyTransform [(2 : ℚ), 2] [(1 : ℚ)/2, 1/2]
      = some (List.replicate [(2 : ℚ), 2].length 0) := by
  have hlen : [(2 : ℚ), 2].length = [(1 : ℚ)/2, 1/2].length := rfl
  have hn : 0 < [(2 : ℚ), 2].length := by norm_num
  have hsum : ¬ ([(1 : ℚ)/2, 1/2] : List ℚ).sum - 1 > 1000000 := by
    norm_num [List.sum_cons]
  have hodds : ∀ o ∈ [(2 : ℚ), 2], 1 < o := by
    intro o ho
    simp only [List.mem_cons, List.not_mem_nil, or_false] at ho
    rcases ho with rfl | rfl <;> norm_num
  have hzip : List.zipWith (· * ·) [(2 : ℚ), 2] [(1 : ℚ)/2, 1/2] = [1, 1] := by
    simp only [List.zipWith_cons_cons, List.zipWith_nil_right]
    norm_num
  have hle : ∀ x ∈ List.zipWith (· * ·) [(2 : ℚ), 2] [(1 : ℚ)/2, 1/2], x ≤ 1 := by
    intro x hx
    rw [hzip] at hx
    simp only [List.mem_cons, List.not_mem_nil, or_false] at hx
    rcases hx with rfl | rfl <;> norm_num
  exact ⟨hlen, hn, hsum, hodds, hle, c9_no_edge _ _ hlen hn hsum hodds hle⟩

/-- C7 counterexample: the claim says the win pool requires n at least 1,
that is, the insufficient-competitors error would be raised at n = 0; the
code raises nothing for the win pool at n = 0 (it runs no dimension check
before returning the level-1 vector). -/
theorem c7_counterexample :
    transformRaises 0 Pool.win = false ∧ ¬ (0 : ℕ) > poolBound Pool.win :=
  ⟨rfl, by decide⟩

/-- C7 amended: transform raises the insufficient-competitors error exactly
when the pool is not win and n is at most the pool bound: quinella needs
n above 2; tierce, trio, place and place_q need n above 3; quartet and
first_4 need n above 4; win never raises it, for any n including 0. -/
theorem c7_amended (n : ℕ) (pl : Pool) :
    transformRaises n pl = true ↔ pl ≠ Pool.win ∧ n ≤ poolBound pl := by
  cases pl <;> simp +decide [transformRaises, checkDim, poolBound] <;> omega

/-- C8: evaluation at the failing input.  The source check
np.sum(prob) - 1 > 1e6 does not fire at prob = [0.6, 0.6] even though the
sum 1.2 misses 1 by far more than the stated 1e-6 tolerance. -/
theorem c8_bug_eval :
    kellySumCheck [3/5, 3/5] = false ∧ |([(3 : ℚ)/5, 3/5] : List ℚ).sum - 1| > 1/1000000 := by
  constructor
  · rw [kellySumCheck]
    simp only [List.sum_cons, List.sum_nil, decide_eq_false_iff_not]
    norm_num
  · simp only [List.sum_cons, List.sum_nil]
    rw [show ((3 : ℚ)/5 + (3/5 + 0)) - 1 = 1/5 by norm_num]
    rw [abs_of_pos (by norm_num : (0 : ℚ) < 1/5)]
    norm_num

/-- C10: when the coefficient list has fewer than 4 entries, construction
extends that very list with 1 entries up to length 4; afterwards the
caller list (and the aliased stored coefficients) is the original list
followed by the padding and has length exactly 4. -/
theorem c10_init_pads (c : List ℚ) (h : c.length < 4) :
    probInitC c = c ++ List.replicate (4 - c.length) 1 ∧ (probInitC c).length = 4 := by
  rw [probInitC, if_pos h]
  refine ⟨rfl, ?_⟩
  simp only [List.length_append, List.length_replicate]
  omega

/-- C10 witness at the one-entry coefficient list [5]. -/
theorem c10_init_pads_witness :
    ([(5 : ℚ)].length < 4) ∧
    (probInitC [(5 : ℚ)] = [(5 : ℚ)] ++ List.replicate (4 - [(5 : ℚ)].length) 1 ∧
      (probInitC [(5 : ℚ)]).length = 4) :=
  ⟨by decide, c10_init_pads [5] (by decide)⟩

end JClearn
